import Mathlib

/-!
Verification of the `lsdjtool` LSDj save-file manipulation library.

The development shallowly embeds the Rust sources:
  * `src/lsdj/compression.rs` — block compressor / decompressor / chain patcher,
  * `src/lsdj/metadata.rs`    — block allocation table and song metadata,
  * `src/lsdj/mod.rs`         — save image, song import/export orchestration.

Conventions of the embedding:
  * Bytes are `Nat` values; byte-typed (`u8`) arithmetic is taken modulo 256
    where the source can wrap.
  * Fixed-size byte arrays (`[u8; N]`) become functions `Nat → Nat` together
    with bounds-checked read/write helpers; an out-of-bounds index — which in
    Rust is a panic — makes the embedded operation return `none`.
  * Loops become fuel-based recursions; the fuel supplied by each wrapper
    exceeds the loop's iteration bound, so fuel exhaustion is unreachable and
    `none` results only from (embedded) panics.
-/

set_option maxRecDepth 100000

namespace Lsdj

/-! ## Constants (compression.rs, metadata.rs, mod.rs) -/

def RLE_BYTE : Nat := 0xc0
def SPECIAL_BYTE : Nat := 0xe0
def DEF_INST_BYTE : Nat := 0xf1
def DEF_WAVE_BYTE : Nat := 0xf0
def EOF_BYTE : Nat := 0xff

def DEF_INST_SIZE : Nat := 0x10
def DEF_WAVE_SIZE : Nat := 0x10

def DEF_INST_VALUES : List Nat :=
  [0xa8, 0x00, 0x00, 0xff, 0x00, 0x00, 0x03, 0x00,
   0x00, 0xd0, 0x00, 0x00, 0x00, 0xf3, 0x00, 0x00]

def DEF_WAVE_VALUES : List Nat :=
  [0x8e, 0xcd, 0xcc, 0xbb, 0xaa, 0xa9, 0x99, 0x88,
   0x87, 0x76, 0x66, 0x55, 0x54, 0x43, 0x32, 0x31]

def BLOCK_SIZE : Nat := 0x200
def BLOCK_COUNT : Nat := 0xbe
def SRAM_SIZE : Nat := 0x8000

def TITLE_LENGTH : Nat := 8
def SONG_SLOTS : Nat := 0x20
def VERSION_TABLE_LENGTH : Nat := 0x20
def EMPTY_BYTES_LENGTH : Nat := 0x1e
def ALLOC_TABLE_LENGTH : Nat := 0xbf

/-- Error values of the `err` module in mod.rs (each `&'static str` constant
becomes one constructor). -/
inductive LsdjErr where
  | songsFull
  | badFmt
  | noBlocks
  | blockTaken
  | noSkip
  | wtf
  | badTitle
deriving DecidableEq, Repr

/-! ## Byte-buffer primitives

`upd f i v` is the result of the in-place store `buf[i] = v`;
`rdB`/`wrB` are block-bounded (`0x200`) reads/writes,
`wrS` is an SRAM-bounded (`0x8000`) write, and `writeBytes` stores a list of
bytes at consecutive SRAM indices (each store bounds-checked, as in Rust). -/

def upd (f : Nat → Nat) (i v : Nat) : Nat → Nat :=
  fun j => if j = i then v else f j

def rdB (f : Nat → Nat) (i : Nat) : Option Nat :=
  if i < BLOCK_SIZE then some (f i) else none

def wrB (f : Nat → Nat) (i v : Nat) : Option (Nat → Nat) :=
  if i < BLOCK_SIZE then some (upd f i v) else none

def wrS (f : Nat → Nat) (i v : Nat) : Option (Nat → Nat) :=
  if i < SRAM_SIZE then some (upd f i v) else none

def writeBytes (f : Nat → Nat) (s : Nat) : List Nat → Option (Nat → Nat)
  | [] => some f
  | v :: l =>
    match wrS f s v with
    | none => none
    | some f1 => writeBytes f1 (s + 1) l

/-! ## Data model (mod.rs, compression.rs, metadata.rs) -/

/-- `LsdjSram` (mod.rs): `position: usize` plus `data: [u8; SRAM_SIZE]`. -/
structure LsdjSram where
  position : Nat
  data : Nat → Nat

/-- `LsdjSram::empty()`. -/
def LsdjSram.empty : LsdjSram := ⟨0, fun _ => 0⟩

/-- `LsdjBlock` (compression.rs): `position: usize` plus `data: [u8; BLOCK_SIZE]`. -/
structure LsdjBlock where
  position : Nat
  data : Nat → Nat

/-- `LsdjBlock::empty()`. -/
def LsdjBlock.empty : LsdjBlock := ⟨0, fun _ => 0⟩

/-- `LsdjMetadata` (metadata.rs).  A song title (`LsdjTitle = [u8; 8]`) is a
`List Nat` of length 8; the title table maps a song index to its title. -/
structure LsdjMetadata where
  title_table : Nat → List Nat
  version_table : Nat → Nat
  empty_bytes : Nat → Nat
  sram_init_chk : List Nat
  working_song : Nat
  alloc_table : Nat → Nat

/-- `LsdjMetadata::empty()`: everything zero except the init-check bytes
(`"jk"`) and the allocation table (all `$ff`, i.e. unallocated). -/
def LsdjMetadata.empty : LsdjMetadata :=
  ⟨fun _ => List.replicate TITLE_LENGTH 0, fun _ => 0, fun _ => 0,
   [0x6a, 0x6b], 0, fun _ => 0xff⟩

/-- `LsdjSave` (mod.rs): SRAM + metadata + the 190-entry block table
(`LsdjBlockTable([LsdjBlock; BLOCK_COUNT])`). -/
structure LsdjSave where
  sram : LsdjSram
  metadata : LsdjMetadata
  blocks : Nat → LsdjBlock

/-- `LsdjSave::empty()`. -/
def LsdjSave.empty : LsdjSave :=
  ⟨LsdjSram.empty, LsdjMetadata.empty, fun _ => LsdjBlock.empty⟩

/-- Bounds-checked read of the 190-entry block table `self.blocks.0[i]`. -/
def rdBlocks (blocks : Nat → LsdjBlock) (i : Nat) : Option LsdjBlock :=
  if i < BLOCK_COUNT then some (blocks i) else none

/-- Bounds-checked write of the 190-entry block table `self.blocks.0[i] = b`. -/
def wrBlocks (blocks : Nat → LsdjBlock) (i : Nat) (b : LsdjBlock) :
    Option (Nat → LsdjBlock) :=
  if i < BLOCK_COUNT then some (fun j => if j = i then b else blocks j) else none

/-! ## Metadata operations (metadata.rs) -/

/-- `is_allocated(block)` — blocks are one-indexed; the table access
`alloc_table[block_index - 1]` panics (`none`) when the index is out of
bounds (in particular when `block_index == 0`). -/
def LsdjMetadata.is_allocated (md : LsdjMetadata) (block_index : Nat) : Option Bool :=
  if 1 ≤ block_index ∧ block_index - 1 < ALLOC_TABLE_LENGTH then
    some (md.alloc_table (block_index - 1) != 0xff)
  else none

/-- The `for block in 1..=self.alloc_table.len()` scan of `next_empty_block`,
starting at block number `b`. -/
def nextEmptyFrom (md : LsdjMetadata) : Nat → Nat → Option Nat
  | 0, _ => none
  | fuel + 1, b =>
    if b ≤ ALLOC_TABLE_LENGTH then
      match md.is_allocated b with
      | some false => some b
      | _ => nextEmptyFrom md fuel (b + 1)
    else none

/-- `next_empty_block()`: lowest one-indexed block whose entry is free. -/
def LsdjMetadata.next_empty_block (md : LsdjMetadata) : Option Nat :=
  nextEmptyFrom md (ALLOC_TABLE_LENGTH + 1) 1

/-- `reserve(block, song)`: `Err(BLOCK_TAKEN)` if the entry is not `$ff`,
otherwise store `song`.  The table access panics (`none`) out of bounds. -/
def LsdjMetadata.reserve (md : LsdjMetadata) (block song : Nat) :
    Option (LsdjMetadata × Except LsdjErr Unit) :=
  if 1 ≤ block ∧ block - 1 < ALLOC_TABLE_LENGTH then
    if md.alloc_table (block - 1) != 0xff then
      some (md, Except.error LsdjErr.blockTaken)
    else
      some ({ md with alloc_table := upd md.alloc_table (block - 1) song },
            Except.ok ())
  else none

/-- `title(song, title)`: `self.title_table[song as usize] = title`
(panics — `none` — when `song ≥ SONG_SLOTS`). -/
def LsdjMetadata.title (md : LsdjMetadata) (song : Nat) (t : List Nat) :
    Option LsdjMetadata :=
  if song < SONG_SLOTS then
    some { md with title_table := fun j => if j = song then t else md.title_table j }
  else none

/-- The enumerated scan of `next_block_for`, from table index `i` with `left`
matches still to skip. -/
def nextBlockForFrom (md : LsdjMetadata) (song : Nat) : Nat → Nat → Nat → Option Nat
  | 0, _, _ => none
  | fuel + 1, i, left =>
    if i < ALLOC_TABLE_LENGTH then
      if md.alloc_table i == song then
        if left = 0 then some (i + 1)
        else nextBlockForFrom md song fuel (i + 1) (left - 1)
      else nextBlockForFrom md song fuel (i + 1) left
    else none

/-- `next_block_for(song, skip)`: the (skip+1)-th one-indexed block whose
allocation entry equals `song`. -/
def LsdjMetadata.next_block_for (md : LsdjMetadata) (song skip : Nat) : Option Nat :=
  nextBlockForFrom md song (ALLOC_TABLE_LENGTH + 1) 0 skip

/-- `size_of(song)`: number of allocation entries equal to `song`. -/
def LsdjMetadata.size_of (md : LsdjMetadata) (song : Nat) : Nat :=
  (List.range ALLOC_TABLE_LENGTH).countP (fun i => md.alloc_table i == song)

/-- `blocks_used()`: number of allocation entries different from `$ff`. -/
def LsdjMetadata.blocks_used (md : LsdjMetadata) : Nat :=
  (List.range ALLOC_TABLE_LENGTH).countP (fun i => md.alloc_table i != 0xff)

/-- The outer `for _i in 0..SONG_SLOTS` loop of `next_available_song`: the
inner loop (with its `break`) bumps `song` when some entry claims it. -/
def nextAvailAux (md : LsdjMetadata) : Nat → Nat → Nat
  | 0, song => song
  | k + 1, song =>
    if (List.range ALLOC_TABLE_LENGTH).any (fun i => md.alloc_table i == song) then
      nextAvailAux md k (song + 1)
    else
      nextAvailAux md k song

/-- `next_available_song()`. -/
def LsdjMetadata.next_available_song (md : LsdjMetadata) : Option Nat :=
  if md.blocks_used = ALLOC_TABLE_LENGTH then none
  else
    let song := nextAvailAux md SONG_SLOTS 0
    if SONG_SLOTS ≤ song then none else some song

/-! ## Dictionary matcher (compression.rs)

`is_def_inst` / `is_def_wave` receive the 16-byte slice
`data[p .. p + DEF_INST_SIZE]`; the slice is passed as its window start `p`.
The source's `try_into` length check always succeeds for these call sites
because the slice has exactly 16 bytes; the element loop with its early
`return false` is the recursion below. -/

def defCmp (data : Nat → Nat) (p : Nat) : List Nat → Nat → Bool
  | [], _ => true
  | v :: vs, j => if data (p + j) = v then defCmp data p vs (j + 1) else false

def is_def_inst (data : Nat → Nat) (p : Nat) : Bool :=
  defCmp data p DEF_INST_VALUES 0

def is_def_wave (data : Nat → Nat) (p : Nat) : Bool :=
  defCmp data p DEF_WAVE_VALUES 0

/-! ## Block compressor (`LsdjSram::compress`, compression.rs) -/

/-- The run-length lookahead loop of `compress`:
`while base+offset+lookahead < SRAM_SIZE && rep < 0xff { ... }` with
`p = base + offset`.  Returns the final repeat count. -/
def runLengthAux (data : Nat → Nat) (p : Nat) : Nat → Nat → Nat → Nat
  | 0, _, rep => rep
  | fuel + 1, lookahead, rep =>
    if p + lookahead < SRAM_SIZE ∧ rep < 0xff then
      if data p = data (p + lookahead) then
        runLengthAux data p fuel (lookahead + 1) (rep + 1)
      else rep
    else rep

def runLength (data : Nat → Nat) (p : Nat) : Nat :=
  runLengthAux data p SRAM_SIZE 1 1

/-- The `for _i in 0..repeat` loop emitting `repeat ≤ 3` literal bytes
(`dest.data[block_index] = self.data[base + offset]`, both indices then
incremented). -/
def emitLits (data : Nat → Nat) : Nat → Nat → Nat → (Nat → Nat) → Option (Nat → Nat)
  | 0, _, _, dest => some dest
  | k + 1, p, bi, dest =>
    match wrB dest bi (data p) with
    | none => none
    | some d1 => emitLits data k (p + 1) (bi + 1) d1

/-- The main loop of `LsdjSram::compress`.  State: `off` (= `offset`),
`bi` (= `block_index`), `dest` (= `dest.data`).  `base = self.position` and
`bn = block_num` are fixed.  Returns `(dest.data, final offset, return value)`;
`none` models a panic (a block write out of bounds). -/
def compressAux (data : Nat → Nat) (base bn : Nat) :
    Nat → Nat → Nat → (Nat → Nat) → Option ((Nat → Nat) × Nat × Nat)
  | 0, _, _, _ => none
  | fuel + 1, off, bi, dest =>
    if base + off < SRAM_SIZE then
      if data (base + off) = RLE_BYTE then
        match wrB dest bi RLE_BYTE with
        | none => none
        | some d1 =>
          match wrB d1 (bi + 1) RLE_BYTE with
          | none => none
          | some d2 => compressAux data base bn fuel (off + 1) (bi + 2) d2
      else if data (base + off) = SPECIAL_BYTE then
        match wrB dest bi SPECIAL_BYTE with
        | none => none
        | some d1 =>
          match wrB d1 (bi + 1) SPECIAL_BYTE with
          | none => none
          | some d2 => compressAux data base bn fuel (off + 1) (bi + 2) d2
      else
        if BLOCK_SIZE < bi + 4 then
          match wrB dest bi SPECIAL_BYTE with
          | none => none
          | some d1 =>
            match wrB d1 (bi + 1) ((bn + 1) % 256) with
            | none => none
            | some d2 => some (d2, off, (bn + 1) % 256)
        else if base + off + DEF_INST_SIZE ≤ SRAM_SIZE
                ∧ is_def_inst data (base + off) then
          match wrB dest bi SPECIAL_BYTE with
          | none => none
          | some d1 =>
            match wrB d1 (bi + 1) DEF_INST_BYTE with
            | none => none
            | some d2 => compressAux data base bn fuel (off + DEF_INST_SIZE) (bi + 2) d2
        else if base + off + DEF_WAVE_SIZE ≤ SRAM_SIZE
                ∧ is_def_wave data (base + off) then
          match wrB dest bi SPECIAL_BYTE with
          | none => none
          | some d1 =>
            match wrB d1 (bi + 1) DEF_WAVE_BYTE with
            | none => none
            | some d2 => compressAux data base bn fuel (off + DEF_INST_SIZE) (bi + 2) d2
        else
          let rep := runLength data (base + off)
          if rep ≤ 3 then
            match emitLits data rep (base + off) bi dest with
            | none => none
            | some d1 => compressAux data base bn fuel (off + rep) (bi + rep) d1
          else
            match wrB dest bi RLE_BYTE with
            | none => none
            | some d1 =>
              match wrB d1 (bi + 1) (data (base + off)) with
              | none => none
              | some d2 =>
                match wrB d2 (bi + 2) rep with
                | none => none
                | some d3 => compressAux data base bn fuel (off + rep) (bi + 3) d3
    else
      match wrB dest bi SPECIAL_BYTE with
      | none => none
      | some d1 =>
        match wrB d1 (bi + 1) EOF_BYTE with
        | none => none
        | some d2 => some (d2, off, 0)

/-- `LsdjSram::compress(&mut self, dest, block_num)`.  On exit the source's
`self.position += offset`; the result is `(self', dest', return value)`.
The source never constructs an `Err` in this function, so the `Result<u8>` is
embedded as the plain return byte. -/
def LsdjSram.compress (self : LsdjSram) (dest : LsdjBlock) (block_num : Nat) :
    Option (LsdjSram × LsdjBlock × Nat) :=
  match compressAux self.data self.position block_num (SRAM_SIZE + 1) 0 0 dest.data with
  | none => none
  | some (d, off, ret) =>
    some (⟨self.position + off, self.data⟩, ⟨dest.position, d⟩, ret)

/-! ## Block decompressor (`LsdjBlock::decompress`, compression.rs) -/

/-- The main loop of `decompress`, writing eagerly into the destination SRAM
as the source does.  State: `off` (= `offset`), `bi` (= `block_index`),
`dest` (= `dest.data`); `base = dest.position` is fixed.  Returns
`(dest.data, final offset, result)`; `none` models a panic (a block read at or
past `BLOCK_SIZE`, or an SRAM write at or past `SRAM_SIZE`). -/
def decompressAux (blk : Nat → Nat) (base : Nat) :
    Nat → Nat → Nat → (Nat → Nat) → Option ((Nat → Nat) × Nat × Except LsdjErr Nat)
  | 0, _, _, _ => none
  | fuel + 1, off, bi, dest =>
    if bi < BLOCK_SIZE then
      if blk bi = RLE_BYTE then
        match rdB blk (bi + 1) with
        | none => none
        | some b1 =>
          if b1 = RLE_BYTE then
            match wrS dest (base + off) RLE_BYTE with
            | none => none
            | some d1 => decompressAux blk base fuel (off + 1) (bi + 2) d1
          else
            match rdB blk (bi + 2) with
            | none => none
            | some cnt =>
              match writeBytes dest (base + off) (List.replicate cnt b1) with
              | none => none
              | some d1 => decompressAux blk base fuel (off + cnt) (bi + 3) d1
      else if blk bi = SPECIAL_BYTE then
        match rdB blk (bi + 1) with
        | none => none
        | some b1 =>
          if b1 = SPECIAL_BYTE then
            match wrS dest (base + off) SPECIAL_BYTE with
            | none => none
            | some d1 => decompressAux blk base fuel (off + 1) (bi + 2) d1
          else if b1 = DEF_INST_BYTE then
            match writeBytes dest (base + off) DEF_INST_VALUES with
            | none => none
            | some d1 => decompressAux blk base fuel (off + DEF_INST_SIZE) (bi + 2) d1
          else if b1 = DEF_WAVE_BYTE then
            match writeBytes dest (base + off) DEF_WAVE_VALUES with
            | none => none
            | some d1 => decompressAux blk base fuel (off + DEF_WAVE_SIZE) (bi + 2) d1
          else if b1 = EOF_BYTE then
            some (dest, off, Except.ok 0)
          else
            some (dest, off, Except.ok b1)
      else
        match wrS dest (base + off) (blk bi) with
        | none => none
        | some d1 => decompressAux blk base fuel (off + 1) (bi + 1) d1
    else
      some (dest, off, Except.error LsdjErr.badFmt)

/-- `LsdjBlock::decompress(&self, dest)`.  All three exits perform
`dest.position += offset`. -/
def LsdjBlock.decompress (self : LsdjBlock) (dest : LsdjSram) :
    Option (LsdjSram × Except LsdjErr Nat) :=
  match decompressAux self.data dest.position (BLOCK_SIZE + 1) 0 0 dest.data with
  | none => none
  | some (d, off, r) => some (⟨dest.position + off, d⟩, r)

/-- Pure reference run of the decompressor over a block's bytes: the same
token scan as `decompressAux`, but collecting the decoded bytes in a list
instead of writing them.  Decoding never reads the destination, so
`decompressAux` is exactly `decodeRunAux` followed by `writeBytes`
(`decompressAux_eq_decodeRun` below). -/
def decodeRunAux (blk : Nat → Nat) :
    Nat → Nat → Option (List Nat × Except LsdjErr Nat)
  | 0, _ => none
  | fuel + 1, bi =>
    if bi < BLOCK_SIZE then
      if blk bi = RLE_BYTE then
        match rdB blk (bi + 1) with
        | none => none
        | some b1 =>
          if b1 = RLE_BYTE then
            match decodeRunAux blk fuel (bi + 2) with
            | none => none
            | some (l, e) => some (RLE_BYTE :: l, e)
          else
            match rdB blk (bi + 2) with
            | none => none
            | some cnt =>
              match decodeRunAux blk fuel (bi + 3) with
              | none => none
              | some (l, e) => some (List.replicate cnt b1 ++ l, e)
      else if blk bi = SPECIAL_BYTE then
        match rdB blk (bi + 1) with
        | none => none
        | some b1 =>
          if b1 = SPECIAL_BYTE then
            match decodeRunAux blk fuel (bi + 2) with
            | none => none
            | some (l, e) => some (SPECIAL_BYTE :: l, e)
          else if b1 = DEF_INST_BYTE then
            match decodeRunAux blk fuel (bi + 2) with
            | none => none
            | some (l, e) => some (DEF_INST_VALUES ++ l, e)
          else if b1 = DEF_WAVE_BYTE then
            match decodeRunAux blk fuel (bi + 2) with
            | none => none
            | some (l, e) => some (DEF_WAVE_VALUES ++ l, e)
          else if b1 = EOF_BYTE then
            some ([], Except.ok 0)
          else
            some ([], Except.ok b1)
      else
        match decodeRunAux blk fuel (bi + 1) with
        | none => none
        | some (l, e) => some (blk bi :: l, e)
    else
      some ([], Except.error LsdjErr.badFmt)

/-- Pure decoded-byte stream of a whole block (same fuel as the wrapper
`LsdjBlock.decompress`). -/
def decodeRun (blk : Nat → Nat) : Option (List Nat × Except LsdjErr Nat) :=
  decodeRunAux blk (BLOCK_SIZE + 1) 0

/-! ## Chain patcher (`LsdjBlock::skip_to_block`, compression.rs) -/

/-- The iterator scan of `skip_to_block` from byte index `i`.  The placeholder
test is `1 <= *n && *n <= BLOCK_COUNT as u8 || *n == b'x'`; the store
`*n = block as u8` truncates to a byte.  Total: the iterator cannot panic. -/
def skipToBlockAux (data : Nat → Nat) (block : Nat) :
    Nat → Nat → (Nat → Nat) × Except LsdjErr Unit
  | 0, _ => (data, Except.error LsdjErr.noSkip)
  | fuel + 1, i =>
    if i < BLOCK_SIZE then
      if data i = SPECIAL_BYTE then
        if i + 1 < BLOCK_SIZE then
          if (1 ≤ data (i + 1) ∧ data (i + 1) ≤ BLOCK_COUNT) ∨ data (i + 1) = 0x78 then
            (upd data (i + 1) (block % 256), Except.ok ())
          else if data (i + 1) = DEF_INST_BYTE ∨ data (i + 1) = DEF_WAVE_BYTE then
            skipToBlockAux data block fuel (i + 2)
          else if data (i + 1) = EOF_BYTE then
            (data, Except.error LsdjErr.noSkip)
          else
            (data, Except.error LsdjErr.badFmt)
        else
          (data, Except.error LsdjErr.badFmt)
      else
        skipToBlockAux data block fuel (i + 1)
    else
      (data, Except.error LsdjErr.noSkip)

/-- `LsdjBlock::skip_to_block(&mut self, block)`. -/
def LsdjBlock.skip_to_block (self : LsdjBlock) (block : Nat) :
    LsdjBlock × Except LsdjErr Unit :=
  match skipToBlockAux self.data block (BLOCK_SIZE + 1) 0 with
  | (d, e) => (⟨self.position, d⟩, e)

/-! ## Song export (`LsdjSave::export_song`, mod.rs) -/

/-- The block-collecting loop of `export_song`: `for i in 0..num_blocks`
(the vector was created with that capacity), breaking at the first `None`
from `next_block_for`; each hit reads `self.blocks.0[next_block - 1]`
(bounds-checked: `none` is the source's panic). -/
def exportCollect (save : LsdjSave) (song : Nat) :
    Nat → Nat → List LsdjBlock → Option (List LsdjBlock)
  | 0, _, acc => some acc
  | k + 1, i, acc =>
    match save.metadata.next_block_for song i with
    | none => some acc
    | some b =>
      match rdBlocks save.blocks (b - 1) with
      | none => none
      | some blk => exportCollect save song k (i + 1) (acc ++ [blk])

/-- `export_song(song)`: collect the song's blocks, then push every byte of
every collected block. -/
def LsdjSave.export_song (save : LsdjSave) (song : Nat) : Option (List Nat) :=
  let num_blocks := save.metadata.size_of song
  match exportCollect save song num_blocks 0 [] with
  | none => none
  | some bl => some ((bl.map (fun blk => (List.range BLOCK_SIZE).map blk.data)).flatten)

/-! ## Song import (`LsdjSave::import_song`, mod.rs) -/

/-- The reservation loop of `import_song`: one iteration per candidate block;
an iteration does nothing when `next_empty_block` is `None` (the source's
`if let Some`), otherwise it reserves the block for `song` — propagating a
`reserve` error via `?` — and records the position. -/
def reserveLoop (md : LsdjMetadata) (song : Nat) :
    Nat → Option (LsdjMetadata × List Nat × Option LsdjErr)
  | 0 => some (md, [], none)
  | k + 1 =>
    match md.next_empty_block with
    | none => reserveLoop md song k
    | some nb =>
      match md.reserve nb song with
      | none => none
      | some (md1, Except.error e) => some (md1, [], some e)
      | some (md1, Except.ok _) =>
        match reserveLoop md1 song k with
        | none => none
        | some (md2, ps, e) => some (md2, nb :: ps, e)

/-- The patch-and-store loop of `import_song`, zipping the reserved positions
with the enumerated candidate blocks.  Every candidate except the last is
chain-patched (`skip_to_block`, target = the next reserved position, obtained
by `peek`; its error propagates via `?`); every processed candidate is stored
at `self.blocks.0[pos - 1]` (bounds-checked: `none` is the source's panic). -/
def patchLoop (num_blocks : Nat) :
    (Nat → LsdjBlock) → List Nat → List (Nat × LsdjBlock) →
    Option ((Nat → LsdjBlock) × Option LsdjErr)
  | blocks, pos :: ps, (i, blk) :: bs =>
    if i < num_blocks - 1 then
      match ps.head? with
      | none => some (blocks, some LsdjErr.wtf)
      | some next_pos =>
        match blk.skip_to_block next_pos with
        | (blk1, Except.ok _) =>
          match wrBlocks blocks (pos - 1) blk1 with
          | none => none
          | some blocks1 => patchLoop num_blocks blocks1 ps bs
        | (_, Except.error e) => some (blocks, some e)
    else
      match wrBlocks blocks (pos - 1) blk with
      | none => none
      | some blocks1 => patchLoop num_blocks blocks1 ps bs
  | blocks, _, _ => some (blocks, none)

/-- The candidate blocks of `import_song`: `bytes` divided into `num_blocks`
chunks of `BLOCK_SIZE` bytes, each copied into a zero-initialized block. -/
def chunkBlocks (bytes : List Nat) (num_blocks : Nat) : List (Nat × LsdjBlock) :=
  (List.range num_blocks).map (fun i =>
    (i, ⟨0, fun j => if j < BLOCK_SIZE then bytes.getD (i * BLOCK_SIZE + j) 0 else 0⟩))

/-- `import_song(bytes, title)`.  Note the source's check order: `SongsFull`
first (from `next_available_song`), then the byte-length `FormatError`, then
`NotEnoughBlocks`.  `free_blocks = BLOCK_COUNT - blocks_used` uses truncating
subtraction; the source's `usize` subtraction cannot underflow on any path
that reaches it, because `blocks_used > BLOCK_COUNT` forces `blocks_used =
ALLOC_TABLE_LENGTH` and hence the earlier `SongsFull` return. -/
def LsdjSave.import_song (save : LsdjSave) (bytes : List Nat) (title : List Nat) :
    Option (LsdjSave × Except LsdjErr Nat) :=
  match save.metadata.next_available_song with
  | none => some (save, Except.error LsdjErr.songsFull)
  | some song =>
    if bytes.length % BLOCK_SIZE ≠ 0 then
      some (save, Except.error LsdjErr.badFmt)
    else
      let num_blocks := bytes.length / BLOCK_SIZE
      let free_blocks := BLOCK_COUNT - save.metadata.blocks_used
      if free_blocks < num_blocks then
        some (save, Except.error LsdjErr.noBlocks)
      else
        match reserveLoop save.metadata song num_blocks with
        | none => none
        | some (md1, _, some e) =>
          some ({ save with metadata := md1 }, Except.error e)
        | some (md1, positions, none) =>
          match patchLoop num_blocks save.blocks positions (chunkBlocks bytes num_blocks) with
          | none => none
          | some (blocks1, some e) =>
            some ({ save with metadata := md1, blocks := blocks1 }, Except.error e)
          | some (blocks1, none) =>
            match md1.title song title with
            | none => none
            | some md2 =>
              some ({ save with metadata := md2, blocks := blocks1 }, Except.ok song)

/-! ## Reference definitions used by the theorems -/

/-- The exhaustion loop of the allocation table, as in the source's own
`test_reserve`: `while let Some(next_block) = metadata.next_empty_block()
{ metadata.reserve(next_block, song)?; }`. -/
def reserveAll (song : Nat) : Nat → LsdjMetadata → LsdjMetadata
  | 0, md => md
  | fuel + 1, md =>
    match md.next_empty_block with
    | none => md
    | some b =>
      match md.reserve b song with
      | some (md1, Except.ok _) => reserveAll song fuel md1
      | _ => md

/-- `reserveAll` with enough fuel to exhaust the table. -/
def reserveAllBlocks (md : LsdjMetadata) (song : Nat) : LsdjMetadata :=
  reserveAll song ALLOC_TABLE_LENGTH md

/-- Number of free (`$ff`) allocation entries. -/
def freeCount (md : LsdjMetadata) : Nat :=
  (List.range ALLOC_TABLE_LENGTH).countP (fun i => md.alloc_table i == 0xff)

/-- Executable check that no 16-byte window of an SRAM buffer matches either
dictionary pattern; `p` counts positions still to inspect. -/
def dictFreeAux (data : Nat → Nat) : Nat → Nat → Bool
  | 0, _ => true
  | fuel + 1, p =>
    if p + DEF_INST_SIZE ≤ SRAM_SIZE then
      if is_def_inst data p then false
      else if is_def_wave data p then false
      else dictFreeAux data fuel (p + 1)
    else true

/-- The buffer contains neither dictionary pattern at any window position. -/
def dictFreeB (data : Nat → Nat) : Bool :=
  dictFreeAux data SRAM_SIZE 0

/-- Spec-side description of the chain patcher on the block's byte list,
written from the (amended) specification sentence: scan left to right; at a
special-escape byte inspect the next byte — a block-number placeholder
(1..=BLOCK_COUNT or the placeholder character) is overwritten with the
target (success); a dictionary marker is skipped; the EOF marker fails with
NoSkip; an escape as the very last byte fails with a format error; any other
following byte fails with a format error; a scan that finds no special-escape
byte fails with NoSkip. -/
def skipSpec (block : Nat) : List Nat → List Nat × Except LsdjErr Unit
  | [] => ([], Except.error LsdjErr.noSkip)
  | b :: rest =>
    if b = SPECIAL_BYTE then
      match rest with
      | [] => ([b], Except.error LsdjErr.badFmt)
      | n :: rest1 =>
        if (1 ≤ n ∧ n ≤ BLOCK_COUNT) ∨ n = 0x78 then
          (b :: block % 256 :: rest1, Except.ok ())
        else if n = DEF_INST_BYTE ∨ n = DEF_WAVE_BYTE then
          match skipSpec block rest1 with
          | (l, e) => (b :: n :: l, e)
        else if n = EOF_BYTE then
          (b :: n :: rest1, Except.error LsdjErr.noSkip)
        else
          (b :: n :: rest1, Except.error LsdjErr.badFmt)
    else
      match skipSpec block rest with
      | (l, e) => (b :: l, e)

/-- The byte list of a block buffer. -/
def blockList (data : Nat → Nat) : List Nat :=
  (List.range BLOCK_SIZE).map data

/-- The byte list `data[s], data[s+1], ..., data[s+n-1]`. -/
def listRange (data : Nat → Nat) (s n : Nat) : List Nat :=
  (List.range n).map (fun k => data (s + k))

/-! ## Concrete instances for counterexamples and witnesses -/

/-- Allocation table with entries for blocks 1..190 taken and block 191 free. -/
def md190 : LsdjMetadata :=
  { LsdjMetadata.empty with alloc_table := fun i => if i < 190 then 0 else 0xff }

/-- Save image whose allocation table gives one block to each of the 32 songs. -/
def save32 : LsdjSave :=
  ⟨LsdjSram.empty,
   { LsdjMetadata.empty with alloc_table := fun i => if i < 32 then i else 0xff },
   fun _ => LsdjBlock.empty⟩

/-- Save image with 190 of the 191 allocation entries taken (all by song 0). -/
def save190 : LsdjSave := ⟨LsdjSram.empty, md190, fun _ => LsdjBlock.empty⟩

/-- An all-zero title. -/
def title0 : List Nat := List.replicate TITLE_LENGTH 0

/-- SRAM consisting entirely of RLE-escape bytes (`$c0`). -/
def sramC0 : LsdjSram := ⟨0, fun _ => 0xc0⟩

/-- Block whose last byte (index 0x1ff) is the RLE-escape, all others zero. -/
def blk511 : LsdjBlock := ⟨0, fun i => if i = 511 then 0xc0 else 0⟩

/-- Block beginning with a doubled special-escape (`$e0 $e0`), zeros after. -/
def blkE : LsdjBlock := ⟨0, fun i => if i = 0 then 0xe0 else if i = 1 then 0xe0 else 0⟩

/-- An all-zero block buffer (decodes 512 literal zeros, then runs off the end). -/
def blkZ : LsdjBlock := LsdjBlock.empty

/-- The destination SRAM produced by decompressing `blkZ` into an empty SRAM
(used to name the concrete result in the C9 witness). -/
def c9dest : LsdjSram :=
  match blkZ.decompress LsdjSram.empty with
  | some (d, _) => d
  | none => LsdjSram.empty

/-- SRAM consisting entirely of `$41` bytes (a single long literal run whose
compressed form fits in one block). -/
def sram41 : LsdjSram := ⟨0, fun _ => 0x41⟩

/-- The result of compressing `sram41` into an empty block with block number 1
(used to name the concrete result in the C4 witness). -/
def c4result : LsdjSram × LsdjBlock × Nat :=
  match sram41.compress LsdjBlock.empty 1 with
  | some r => r
  | none => (sram41, LsdjBlock.empty, 7)

/-! # Theorems -/

/-- C1 (counterexample).  The allocation table has 191 entries, not 190: from
the save state `md190` (blocks 1..190 taken, block 191 free),
`next_empty_block` returns block number 191 > 190, and exhausting the table
with the reserve loop leaves `blocks_used() = 191 ≠ 190` while
`next_empty_block()` returns none. -/
theorem c1_counterexample :
    LsdjMetadata.next_empty_block md190 = some 0xbf ∧ 0xbe < 0xbf ∧
    LsdjMetadata.blocks_used (reserveAllBlocks md190 0) = 0xbf ∧
    LsdjMetadata.next_empty_block (reserveAllBlocks md190 0) = none ∧
    (0xbf : Nat) ≠ 0xbe :=
  ⟨rfl, by decide, rfl, rfl, by decide⟩

/-- C2 (failing input).  Compressing an SRAM that consists entirely of
RLE-escape (`$c0`) bytes emits a doubled-escape token per source byte with no
headroom check, so the 257th token writes at block index 0x200: an
out-of-bounds store (a panic, embedded as `none`), contradicting the claim
that every token byte lands strictly below 0x200. -/
theorem c2_compress_overflows :
    LsdjSram.compress sramC0 LsdjBlock.empty 1 = none := rfl

/-- C3 (failing input).  Decompressing a block whose final byte (index 0x1ff)
is the RLE-escape makes the scan read the block at index 0x200 — past the
fixed bound — which is an out-of-bounds read (a panic, embedded as `none`)
rather than the claimed format error. -/
theorem c3_decompress_reads_out_of_bounds :
    LsdjBlock.decompress blk511 LsdjSram.empty = none := rfl

/-- C5 (counterexample).  A doubled special-escape (`$e0 $e0`) at the start of
a block makes `skip_to_block` fail with the format error: the second `$e0` is
neither a placeholder (1..=190 or the placeholder character) nor a dictionary
marker nor the EOF marker, so the scan does not continue past it as the claim
states. -/
theorem c5_counterexample :
    (blkE.skip_to_block 5).2 = Except.error LsdjErr.badFmt ∧
    LsdjErr.badFmt ≠ LsdjErr.noSkip ∧ LsdjErr.badFmt ≠ LsdjErr.blockTaken :=
  ⟨rfl, by decide, by decide⟩

/-- C6 (counterexample).  On a save whose 32 song slots all own a block and an
input of length 1 (not a multiple of 0x200), `import_song` fails with
`SongsFull`, not with the `FormatError` the claim requires for a bad length:
the source checks the song slots first. -/
theorem c6_counterexample :
    LsdjSave.import_song save32 [0] title0 =
      some (save32, Except.error LsdjErr.songsFull) ∧
    (0x1 : Nat) % BLOCK_SIZE ≠ 0 ∧
    LsdjErr.songsFull ≠ LsdjErr.badFmt :=
  ⟨rfl, by decide, by decide⟩

/-- C7 (failing input).  Exporting song index `$ff` (the free sentinel) from
an empty save image panics: all 191 allocation entries match, so the loop
eventually asks for block 191 and indexes the 190-entry block table out of
bounds (`none`), instead of returning the concatenation of the matching
blocks' contents. -/
theorem c7_export_panics :
    LsdjSave.export_song LsdjSave.empty 0xff = none := rfl

/-- C8.  `reserve` does not validate the song value: reserving a free block
for the free sentinel `$ff` succeeds, yet the block stays unallocated
(`is_allocated` still `false`, `blocks_used` unchanged) and can be reserved
again. -/
theorem c8_reserve_free_sentinel (md : LsdjMetadata) (b : Nat)
    (h1 : 1 ≤ b) (h2 : b ≤ ALLOC_TABLE_LENGTH)
    (h3 : md.alloc_table (b - 1) = 0xff) :
    ∃ md1, md.reserve b 0xff = some (md1, Except.ok ()) ∧
      md1.is_allocated b = some false ∧
      md1.blocks_used = md.blocks_used ∧
      ∃ md2, md1.reserve b 0xff = some (md2, Except.ok ()) := by
  have hb : b - 1 < ALLOC_TABLE_LENGTH := by omega
  have hupd : upd md.alloc_table (b - 1) 0xff = md.alloc_table := by
    funext j
    unfold upd
    by_cases hj : j = b - 1
    · simp [hj, h3]
    · simp [hj]
  have hres : md.reserve b 0xff = some (md, Except.ok ()) := by
    unfold LsdjMetadata.reserve
    rw [if_pos ⟨h1, hb⟩, h3, hupd]
    simp
  have hall : md.is_allocated b = some false := by
    unfold LsdjMetadata.is_allocated
    rw [if_pos ⟨h1, hb⟩, h3]
    rfl
  exact ⟨md, hres, hall, rfl, md, hres⟩

/-- C8 witness: block 1 of the empty metadata. -/
theorem c8_reserve_free_sentinel_witness :
    ∃ md1, LsdjMetadata.empty.reserve 1 0xff = some (md1, Except.ok ()) ∧
      md1.is_allocated 1 = some false ∧
      md1.blocks_used = LsdjMetadata.empty.blocks_used ∧
      ∃ md2, md1.reserve 1 0xff = some (md2, Except.ok ()) :=
  c8_reserve_free_sentinel LsdjMetadata.empty 1 (by decide) (by decide) rfl

/-- A song index returned by `next_available_song` is below `SONG_SLOTS`. -/
theorem next_avail_some_lt {md : LsdjMetadata} {s : Nat}
    (h : md.next_available_song = some s) : s < SONG_SLOTS := by
  unfold LsdjMetadata.next_available_song at h
  by_cases h1 : md.blocks_used = ALLOC_TABLE_LENGTH
  · rw [if_pos h1] at h
    exact absurd h (by simp)
  · rw [if_neg h1] at h
    by_cases h2 : SONG_SLOTS ≤ nextAvailAux md SONG_SLOTS 0
    · simp only [if_pos h2] at h
      exact absurd h (by simp)
    · simp only [if_neg h2] at h
      cases h
      omega

/-- C10.  Importing a zero-length byte slice into a save with a free song
slot succeeds with the next available song index, reserves no blocks, writes
no block data, and assigns the title to that song. -/
theorem c10_import_empty (save : LsdjSave) (t : List Nat) (s : Nat)
    (h : save.metadata.next_available_song = some s) :
    ∃ save1, save.import_song [] t = some (save1, Except.ok s) ∧
      save1.sram = save.sram ∧
      save1.blocks = save.blocks ∧
      save1.metadata.alloc_table = save.metadata.alloc_table ∧
      save1.metadata.version_table = save.metadata.version_table ∧
      save1.metadata.title_table s = t ∧
      ∀ j, j ≠ s → save1.metadata.title_table j = save.metadata.title_table j := by
  have hs : s < SONG_SLOTS := next_avail_some_lt h
  refine ⟨⟨save.sram,
          { save.metadata with
              title_table := fun j => if j = s then t else save.metadata.title_table j },
          save.blocks⟩, ?_, rfl, rfl, rfl, rfl, by simp, ?_⟩
  · unfold LsdjSave.import_song
    rw [h]
    simp only [List.length_nil, Nat.zero_mod, ne_eq, not_true_eq_false, not_false_eq_true,
      if_false, if_true, Nat.zero_div]
    simp [reserveLoop, chunkBlocks, patchLoop, LsdjMetadata.title, hs]
  · intro j hj
    simp [hj]

/-! ### Allocation-table exhaustion (C1) -/

/-- Unfolding `is_allocated` when it reports a free block. -/
theorem is_allocated_some_false {md : LsdjMetadata} {b : Nat}
    (h : md.is_allocated b = some false) :
    1 ≤ b ∧ b - 1 < ALLOC_TABLE_LENGTH ∧ md.alloc_table (b - 1) = 0xff := by
  unfold LsdjMetadata.is_allocated at h
  split at h
  · next hc =>
    simp only [Option.some.injEq] at h
    refine ⟨hc.1, hc.2, ?_⟩
    simpa using h
  · exact absurd h (by simp)

/-- Unfolding `is_allocated` on an allocated block. -/
theorem is_allocated_some_true {md : LsdjMetadata} {b : Nat}
    (h1 : 1 ≤ b) (h2 : b - 1 < ALLOC_TABLE_LENGTH)
    (h3 : md.alloc_table (b - 1) ≠ 0xff) :
    md.is_allocated b = some true := by
  unfold LsdjMetadata.is_allocated
  rw [if_pos ⟨h1, h2⟩]
  simpa using h3

/-- A block number produced by the `next_empty_block` scan is in range, its
entry is free, and it is at or after the scan start. -/
theorem nextEmptyFrom_some {md : LsdjMetadata} :
    ∀ fuel b0 b, nextEmptyFrom md fuel b0 = some b →
      b0 ≤ b ∧ b ≤ ALLOC_TABLE_LENGTH ∧ md.alloc_table (b - 1) = 0xff := by
  intro fuel
  induction fuel with
  | zero => intro b0 b h; exact absurd h (by simp [nextEmptyFrom])
  | succ n ih =>
    intro b0 b h
    rw [nextEmptyFrom] at h
    split at h
    · next hle =>
      cases hA : md.is_allocated b0 with
      | none =>
        rw [hA] at h
        have := ih (b0 + 1) b h
        exact ⟨by omega, this.2.1, this.2.2⟩
      | some v =>
        cases v with
        | false =>
          rw [hA] at h
          cases h
          have := is_allocated_some_false hA
          exact ⟨Nat.le_refl _, hle, this.2.2⟩
        | true =>
          rw [hA] at h
          have := ih (b0 + 1) b h
          exact ⟨by omega, this.2.1, this.2.2⟩
    · exact absurd h (by simp)

/-- If the `next_empty_block` scan (with enough fuel) finds nothing, every
table entry from the scan start on is allocated. -/
theorem nextEmptyFrom_none {md : LsdjMetadata} :
    ∀ fuel b0, 1 ≤ b0 → ALLOC_TABLE_LENGTH + 1 ≤ fuel + b0 →
      nextEmptyFrom md fuel b0 = none →
      ∀ i, b0 ≤ i → i ≤ ALLOC_TABLE_LENGTH → md.alloc_table (i - 1) ≠ 0xff := by
  intro fuel
  induction fuel with
  | zero => intro b0 _ hf _ i hi1 hi2; omega
  | succ n ih =>
    intro b0 hb0 hf h i hi1 hi2
    rw [nextEmptyFrom] at h
    split at h
    · next hle =>
      cases hA : md.is_allocated b0 with
      | none =>
        have : b0 - 1 < ALLOC_TABLE_LENGTH := by omega
        unfold LsdjMetadata.is_allocated at hA
        rw [if_pos ⟨hb0, this⟩] at hA
        exact absurd hA (by simp)
      | some v =>
        cases v with
        | false => rw [hA] at h; exact absurd h (by simp)
        | true =>
          rw [hA] at h
          by_cases hib : i = b0
          · subst hib
            intro hcontra
            have hAf : md.is_allocated i = some false := by
              unfold LsdjMetadata.is_allocated
              rw [if_pos ⟨hb0, by omega⟩]
              simp [hcontra]
            rw [hA] at hAf
            simp at hAf
          · exact ih (b0 + 1) (by omega) (by omega) h i (by omega) hi2
    · omega

/-- Complement identity: used plus free entries cover the whole table. -/
theorem countP_used_add_free (f : Nat → Nat) :
    ∀ n, (List.range n).countP (fun i => f i != 0xff)
        + (List.range n).countP (fun i => f i == 0xff) = n := by
  intro n
  induction n with
  | zero => simp
  | succ m ih =>
    rw [List.range_succ, List.countP_append, List.countP_append]
    by_cases h : f m = 0xff <;> simp [List.countP_cons, h] <;> omega

/-- Used plus free entries cover the whole allocation table. -/
theorem blocks_used_add_freeCount (md : LsdjMetadata) :
    md.blocks_used + freeCount md = ALLOC_TABLE_LENGTH := by
  unfold LsdjMetadata.blocks_used freeCount
  exact countP_used_add_free md.alloc_table ALLOC_TABLE_LENGTH

/-- The free count is zero exactly when no entry is free. -/
theorem freeCount_eq_zero_iff (md : LsdjMetadata) :
    freeCount md = 0 ↔ ∀ i, i < ALLOC_TABLE_LENGTH → md.alloc_table i ≠ 0xff := by
  unfold freeCount
  rw [List.countP_eq_zero]
  constructor
  · intro h i hi
    have := h i (List.mem_range.mpr hi)
    simpa using this
  · intro h a ha
    have := h a (List.mem_range.mp ha)
    simpa using this

/-- When no entry is free, the `next_empty_block` scan returns none. -/
theorem nextEmptyFrom_of_full {md : LsdjMetadata}
    (hfull : ∀ i, i < ALLOC_TABLE_LENGTH → md.alloc_table i ≠ 0xff) :
    ∀ fuel b0, 1 ≤ b0 → nextEmptyFrom md fuel b0 = none := by
  intro fuel
  induction fuel with
  | zero => intro b0 _; rfl
  | succ n ih =>
    intro b0 hb0
    rw [nextEmptyFrom]
    split
    · next hle =>
      have hA : md.is_allocated b0 = some true :=
        is_allocated_some_true hb0 (by omega) (hfull (b0 - 1) (by omega))
      rw [hA]
      exact ih (b0 + 1) (by omega)
    · rfl

/-- Updating a free entry to a non-free value decrements the free count of
the scanned range by one. -/
theorem countP_upd_free (f : Nat → Nat) (i v : Nat) (hv : v ≠ 0xff)
    (hfree : f i = 0xff) :
    ∀ n, i < n →
      (List.range n).countP (fun j => upd f i v j == 0xff) + 1
        = (List.range n).countP (fun j => f j == 0xff) := by
  intro n
  induction n with
  | zero => intro h; omega
  | succ m ih =>
    intro h
    rw [List.range_succ, List.countP_append, List.countP_append]
    by_cases him : i = m
    · subst him
      have hsame : (List.range i).countP (fun j => upd f i v j == 0xff)
          = (List.range i).countP (fun j => f j == 0xff) := by
        apply List.countP_congr
        intro a ha
        have : a ≠ i := by have := List.mem_range.mp ha; omega
        simp [upd, this]
      rw [hsame]
      have h1 : List.countP (fun j => upd f i v j == 0xff) [i] = 0 := by
        simp [upd, hv]
      have h2 : List.countP (fun j => f j == 0xff) [i] = 1 := by
        simp [hfree]
      omega
    · have him2 : i < m := by omega
      have hlast : (List.countP (fun j => upd f i v j == 0xff) [m])
          = (List.countP (fun j => f j == 0xff) [m]) := by
        have hm : upd f i v m = f m := by simp [upd, Ne.symm him]
        simp only [List.countP_cons, List.countP_nil, hm]
      have := ih him2
      omega

/-- The exhaustion loop empties the free count (given enough fuel and a
non-sentinel song value). -/
theorem reserveAll_empties (song : Nat) (hsong : song ≠ 0xff) :
    ∀ fuel md, freeCount md ≤ fuel → freeCount (reserveAll song fuel md) = 0 := by
  intro fuel
  induction fuel with
  | zero => intro md h; rw [reserveAll]; omega
  | succ n ih =>
    intro md h
    cases hE : md.next_empty_block with
    | none =>
      have hfull := nextEmptyFrom_none (ALLOC_TABLE_LENGTH + 1) 1 (by omega) (by omega) hE
      simp only [reserveAll, hE]
      rw [freeCount_eq_zero_iff]
      intro i hi
      have := hfull (i + 1) (by omega) (by omega)
      simpa using this
    | some b =>
      obtain ⟨hb1, hb2, hb3⟩ := nextEmptyFrom_some (ALLOC_TABLE_LENGTH + 1) 1 b hE
      have hblt : b - 1 < ALLOC_TABLE_LENGTH := by omega
      have hres : md.reserve b song =
          some ({ md with alloc_table := upd md.alloc_table (b - 1) song },
                Except.ok ()) := by
        unfold LsdjMetadata.reserve
        rw [if_pos ⟨hb1, hblt⟩, hb3]
        simp
      simp only [reserveAll, hE, hres]
      have hdec : freeCount
          { md with alloc_table := upd md.alloc_table (b - 1) song } + 1
            = freeCount md := by
        unfold freeCount
        exact countP_upd_free md.alloc_table (b - 1) song hsong hb3
          ALLOC_TABLE_LENGTH hblt
      exact ih _ (by omega)

/-- C1 (amended).  The allocation table has 191 (= 0xbf) entries: for every
save image, after repeatedly calling `next_empty_block()` and `reserve()`
(with a non-sentinel song value) until `next_empty_block()` returns none,
`blocks_used()` returns 191 and `next_empty_block()` returns none; and
`next_empty_block()` never returns a block number greater than 191. -/
theorem c1_amended (md : LsdjMetadata) (song : Nat) (hsong : song ≠ 0xff) :
    (reserveAllBlocks md song).blocks_used = 0xbf ∧
    (reserveAllBlocks md song).next_empty_block = none ∧
    ∀ md1 b, LsdjMetadata.next_empty_block md1 = some b →
      1 ≤ b ∧ b ≤ 0xbf := by
  have hle : freeCount md ≤ ALLOC_TABLE_LENGTH := by
    have h1 := blocks_used_add_freeCount md
    omega
  have h0 : freeCount (reserveAll song ALLOC_TABLE_LENGTH md) = 0 :=
    reserveAll_empties song hsong ALLOC_TABLE_LENGTH md hle
  have hfull := (freeCount_eq_zero_iff _).mp h0
  refine ⟨?_, ?_, ?_⟩
  · have := blocks_used_add_freeCount (reserveAll song ALLOC_TABLE_LENGTH md)
    have hA : ALLOC_TABLE_LENGTH = 0xbf := rfl
    unfold reserveAllBlocks
    omega
  · exact nextEmptyFrom_of_full hfull (ALLOC_TABLE_LENGTH + 1) 1 (by omega)
  · intro md1 b h
    have := @nextEmptyFrom_some md1 (ALLOC_TABLE_LENGTH + 1) 1 b h
    exact ⟨this.1, this.2.1⟩

/-- C1 (amended) witness: the empty metadata table with song 0. -/
theorem c1_amended_witness :
    (reserveAllBlocks LsdjMetadata.empty 0).blocks_used = 0xbf ∧
    (reserveAllBlocks LsdjMetadata.empty 0).next_empty_block = none ∧
    ∀ md1 b, LsdjMetadata.next_empty_block md1 = some b →
      1 ≤ b ∧ b ≤ 0xbf :=
  c1_amended LsdjMetadata.empty 0 (by decide)

/-! ### Chain patcher versus its list-level description (C5) -/

/-- Peeling one byte off a `listRange`. -/
theorem listRange_succ (f : Nat → Nat) (i n : Nat) :
    listRange f i (n + 1) = f i :: listRange f (i + 1) n := by
  unfold listRange
  rw [List.range_succ_eq_map, List.map_cons, List.map_map]
  simp only [Nat.add_zero]
  congr 1
  apply List.map_congr_left
  intro a _
  simp only [Function.comp_apply]
  congr 1
  omega

/-- `listRange` only looks at the window it covers. -/
theorem listRange_congr {f g : Nat → Nat} (i n : Nat)
    (h : ∀ k, k < n → f (i + k) = g (i + k)) :
    listRange f i n = listRange g i n := by
  unfold listRange
  apply List.map_congr_left
  intro a ha
  exact h a (List.mem_range.mp ha)

/-- A block's byte list is the `listRange` of its whole index range. -/
theorem blockList_eq_listRange (f : Nat → Nat) :
    blockList f = listRange f 0 BLOCK_SIZE := by
  unfold blockList listRange
  apply List.map_congr_left
  intro a _
  simp

/-- `skipSpec` on a non-special head byte copies it and recurses. -/
theorem skipSpec_cons_other (t b : Nat) (rest : List Nat) (hb : b ≠ SPECIAL_BYTE) :
    skipSpec t (b :: rest) = (b :: (skipSpec t rest).1, (skipSpec t rest).2) := by
  cases rest with
  | nil => simp [skipSpec, hb]
  | cons n rest1 => simp [skipSpec, hb]

/-- The scan of `skip_to_block` from index `i` agrees with the list-level
description `skipSpec` applied to the block's byte suffix: same error or
success result, the suffix of the final buffer is the spec's output list, and
bytes before the scan start are untouched. -/
theorem skipAux_spec (data : Nat → Nat) (t : Nat) :
    ∀ fuel i, BLOCK_SIZE - i < fuel →
      (skipToBlockAux data t fuel i).2
          = (skipSpec t (listRange data i (BLOCK_SIZE - i))).2 ∧
      listRange (skipToBlockAux data t fuel i).1 i (BLOCK_SIZE - i)
          = (skipSpec t (listRange data i (BLOCK_SIZE - i))).1 ∧
      ∀ j, j < i → (skipToBlockAux data t fuel i).1 j = data j := by
  intro fuel
  induction fuel with
  | zero => intro i h; omega
  | succ n ih =>
    intro i h
    by_cases hi : i < BLOCK_SIZE
    · have hn : BLOCK_SIZE - i = (BLOCK_SIZE - (i + 1)) + 1 := by omega
      have hcons : listRange data i (BLOCK_SIZE - i)
          = data i :: listRange data (i + 1) (BLOCK_SIZE - (i + 1)) := by
        rw [hn, listRange_succ]
      by_cases hsp : data i = SPECIAL_BYTE
      · by_cases hi1 : i + 1 < BLOCK_SIZE
        · have hn1 : BLOCK_SIZE - (i + 1) = (BLOCK_SIZE - (i + 2)) + 1 := by omega
          have hcons1 : listRange data (i + 1) (BLOCK_SIZE - (i + 1))
              = data (i + 1) :: listRange data (i + 2) (BLOCK_SIZE - (i + 2)) := by
            rw [hn1, listRange_succ]
          by_cases hph : (1 ≤ data (i + 1) ∧ data (i + 1) ≤ BLOCK_COUNT)
              ∨ data (i + 1) = 0x78
          · -- chain-pointer placeholder: overwrite and succeed
            rw [skipToBlockAux]
            simp only [if_pos hi, if_pos hsp, if_pos hi1, if_pos hph]
            rw [hcons, hcons1]
            simp only [skipSpec, if_pos hsp, if_pos hph]
            refine ⟨trivial, ?_, ?_⟩
            · rw [hn, listRange_succ, hn1, listRange_succ]
              have e1 : upd data (i + 1) (t % 256) i = data i := by
                simp [upd, show i ≠ i + 1 by omega]
              have e2 : upd data (i + 1) (t % 256) (i + 1) = t % 256 := by
                simp [upd]
              have e3 : listRange (upd data (i + 1) (t % 256)) (i + 2)
                  (BLOCK_SIZE - (i + 2)) = listRange data (i + 2) (BLOCK_SIZE - (i + 2)) := by
                apply listRange_congr
                intro k _
                simp [upd, show i + 2 + k ≠ i + 1 by omega]
              rw [e1, e2, e3]
            · intro j hj
              simp [upd, show j ≠ i + 1 by omega]
          · by_cases hdict : data (i + 1) = DEF_INST_BYTE ∨ data (i + 1) = DEF_WAVE_BYTE
            · -- dictionary marker: skip and continue
              obtain ⟨ihe, ihl, ihf⟩ := ih (i + 2) (by omega)
              rw [skipToBlockAux]
              simp only [if_pos hi, if_pos hsp, if_pos hi1, if_neg hph, if_pos hdict]
              rw [hcons, hcons1]
              simp only [skipSpec, if_pos hsp, if_neg hph, if_pos hdict]
              cases hS : skipSpec t (listRange data (i + 2) (BLOCK_SIZE - (i + 2))) with
              | mk l e =>
                rw [hS] at ihe ihl
                refine ⟨ihe, ?_, ?_⟩
                · rw [hn, listRange_succ, hn1, listRange_succ]
                  rw [ihf i (by omega), ihf (i + 1) (by omega), ihl]
                · intro j hj
                  exact ihf j (by omega)
            · by_cases heof : data (i + 1) = EOF_BYTE
              · -- EOF marker: NoSkip
                rw [skipToBlockAux]
                simp only [if_pos hi, if_pos hsp, if_pos hi1, if_neg hph, if_neg hdict,
                  if_pos heof]
                rw [hcons, hcons1]
                simp only [skipSpec, if_pos hsp, if_neg hph, if_neg hdict, if_pos heof]
                exact ⟨trivial, trivial, fun j _ => trivial⟩
              · -- any other byte: format error
                rw [skipToBlockAux]
                simp only [if_pos hi, if_pos hsp, if_pos hi1, if_neg hph, if_neg hdict,
                  if_neg heof]
                rw [hcons, hcons1]
                simp only [skipSpec, if_pos hsp, if_neg hph, if_neg hdict, if_neg heof]
                exact ⟨trivial, trivial, fun j _ => trivial⟩
        · -- special-escape is the block's last byte: format error
          have hlast : BLOCK_SIZE - (i + 1) = 0 := by omega
          rw [skipToBlockAux]
          simp only [if_pos hi, if_pos hsp, if_neg hi1]
          rw [hcons, hlast]
          simp only [listRange, List.range_zero, List.map_nil]
          simp only [skipSpec, if_pos hsp]
          exact ⟨trivial, trivial, fun j _ => trivial⟩
      · -- not a special-escape byte: continue scanning
        obtain ⟨ihe, ihl, ihf⟩ := ih (i + 1) (by omega)
        rw [skipToBlockAux]
        simp only [if_pos hi, if_neg hsp]
        rw [hcons, skipSpec_cons_other t (data i) _ hsp]
        refine ⟨ihe, ?_, ?_⟩
        · rw [hn, listRange_succ, ihf i (by omega), ihl]
        · intro j hj
          exact ihf j (by omega)
    · -- scan exhausted without finding a special-escape byte
      have h0 : BLOCK_SIZE - i = 0 := by omega
      rw [skipToBlockAux]
      simp only [if_neg hi]
      rw [h0]
      simp [listRange, skipSpec]

/-- C5 (amended).  `skip_to_block` behaves exactly as the list-level
description `skipSpec`: a chain-pointer placeholder after a special-escape is
overwritten with the target (success); dictionary markers are skipped; the
EOF marker and the absence of any special-escape fail with `NoSkip`; a
trailing special-escape — and a special-escape followed by any other byte,
including a doubled special-escape — fail with a format error. -/
theorem c5_amended (blk : LsdjBlock) (t : Nat) :
    (blk.skip_to_block t).2 = (skipSpec t (blockList blk.data)).2 ∧
    blockList (blk.skip_to_block t).1.data = (skipSpec t (blockList blk.data)).1 := by
  have h := skipAux_spec blk.data t (BLOCK_SIZE + 1) 0 (by omega)
  obtain ⟨he, hl, _⟩ := h
  unfold LsdjBlock.skip_to_block
  rw [blockList_eq_listRange, blockList_eq_listRange]
  cases hS : skipToBlockAux blk.data t (BLOCK_SIZE + 1) 0 with
  | mk d e =>
    rw [hS] at he hl
    have h0 : BLOCK_SIZE - 0 = BLOCK_SIZE := by omega
    rw [h0] at he hl
    exact ⟨he, hl⟩

/-! ### The decompressor as pure decoding plus sequential stores (C9, C4) -/

/-- Unfolding equations of `writeBytes` (definitional). -/
theorem writeBytes_nil (f : Nat → Nat) (s : Nat) : writeBytes f s [] = some f := rfl

theorem writeBytes_cons (f : Nat → Nat) (s v : Nat) (l : List Nat) :
    writeBytes f s (v :: l)
      = match wrS f s v with
        | none => none
        | some f1 => writeBytes f1 (s + 1) l := rfl

theorem DEF_INST_VALUES_length : DEF_INST_VALUES.length = DEF_INST_SIZE := rfl

theorem DEF_WAVE_VALUES_length : DEF_WAVE_VALUES.length = DEF_WAVE_SIZE := rfl

/-- Splitting a sequential store of a concatenation. -/
theorem writeBytes_append (f : Nat → Nat) (s : Nat) (l1 l2 : List Nat) :
    writeBytes f s (l1 ++ l2)
      = match writeBytes f s l1 with
        | none => none
        | some f1 => writeBytes f1 (s + l1.length) l2 := by
  induction l1 generalizing f s with
  | nil => simp [writeBytes]
  | cons v l1 ih =>
    rw [List.cons_append, writeBytes, writeBytes]
    cases wrS f s v with
    | none => rfl
    | some f1 =>
      show writeBytes f1 (s + 1) (l1 ++ l2)
          = match writeBytes f1 (s + 1) l1 with
            | none => none
            | some f2 => writeBytes f2 (s + (v :: l1).length) l2
      rw [ih f1 (s + 1)]
      cases writeBytes f1 (s + 1) l1 with
      | none => rfl
      | some f2 =>
        show writeBytes f2 (s + 1 + l1.length) l2
            = writeBytes f2 (s + (v :: l1).length) l2
        rw [List.length_cons]
        congr 1
        omega

/-- What a successful sequential store does: bytes below and above the window
are untouched, the window holds the list, and the window is in bounds. -/
theorem writeBytes_spec (l : List Nat) :
    ∀ (f : Nat → Nat) (s : Nat) (g : Nat → Nat), writeBytes f s l = some g →
      (∀ j, j < s → g j = f j) ∧
      (∀ j, s + l.length ≤ j → g j = f j) ∧
      (∀ k, k < l.length → g (s + k) = l.getD k 0) ∧
      (∀ k, k < l.length → s + k < SRAM_SIZE) := by
  induction l with
  | nil =>
    intro f s g h
    simp [writeBytes] at h
    subst h
    exact ⟨fun _ _ => rfl, fun _ _ => rfl, fun k hk => by simp at hk,
      fun k hk => by simp at hk⟩
  | cons v l ih =>
    intro f s g h
    rw [writeBytes] at h
    cases hw : wrS f s v with
    | none => rw [hw] at h; exact absurd h (by simp)
    | some f1 =>
      rw [hw] at h
      have hs : s < SRAM_SIZE := by
        by_contra hc
        unfold wrS at hw
        rw [if_neg hc] at hw
        exact absurd hw (by simp)
      have hf1 : f1 = upd f s v := by
        unfold wrS at hw
        rw [if_pos hs] at hw
        exact (Option.some.inj hw).symm
      obtain ⟨hlo, hhi, hwin, hbnd⟩ := ih f1 (s + 1) g h
      refine ⟨?_, ?_, ?_, ?_⟩
      · intro j hj
        rw [hlo j (by omega), hf1]
        simp [upd, show j ≠ s by omega]
      · intro j hj
        rw [List.length_cons] at hj
        rw [hhi j (by omega), hf1]
        simp [upd, show j ≠ s by omega]
      · intro k hk
        cases k with
        | zero =>
          have hgs : g s = f1 s := hlo s (by omega)
          rw [Nat.add_zero, hgs, hf1, List.getD_cons_zero]
          simp [upd]
        | succ m =>
          rw [List.length_cons] at hk
          have hw2 := hwin m (by omega)
          rw [show s + (m + 1) = s + 1 + m by omega, List.getD_cons_succ]
          exact hw2
      · intro k hk
        cases k with
        | zero => simpa using hs
        | succ m =>
          rw [List.length_cons] at hk
          have := hbnd m (by omega)
          omega

/-- A sequential store succeeds when it fits below the SRAM bound. -/
theorem writeBytes_total (l : List Nat) :
    ∀ (f : Nat → Nat) (s : Nat), s + l.length ≤ SRAM_SIZE →
      ∃ g, writeBytes f s l = some g := by
  induction l with
  | nil => intro f s _; exact ⟨f, rfl⟩
  | cons v l ih =>
    intro f s h
    rw [List.length_cons] at h
    have hs : s < SRAM_SIZE := by omega
    have hw : wrS f s v = some (upd f s v) := by unfold wrS; rw [if_pos hs]
    obtain ⟨g, hg⟩ := ih (upd f s v) (s + 1) (by omega)
    refine ⟨g, ?_⟩
    rw [writeBytes_cons, hw]
    exact hg

/-- The eagerly-writing decompressor loop equals the pure token decoder
followed by one sequential store of the decoded bytes at the destination
cursor. -/
theorem decompressAux_eq_decodeRun (blk : Nat → Nat) (base : Nat) :
    ∀ fuel off bi dest,
      decompressAux blk base fuel off bi dest
        = match decodeRunAux blk fuel bi with
          | none => none
          | some (l, e) =>
            match writeBytes dest (base + off) l with
            | none => none
            | some d => some (d, off + l.length, e) := by
  intro fuel
  induction fuel with
  | zero => intro off bi dest; rfl
  | succ n ih =>
    intro off bi dest
    rw [decompressAux, decodeRunAux]
    by_cases hbi : bi < BLOCK_SIZE
    · rw [if_pos hbi, if_pos hbi]
      by_cases hc0 : blk bi = RLE_BYTE
      · rw [if_pos hc0, if_pos hc0]
        cases hr1 : rdB blk (bi + 1) with
        | none => rfl
        | some b1 =>
          dsimp only
          by_cases hb1 : b1 = RLE_BYTE
          · rw [if_pos hb1, if_pos hb1]
            cases hw : wrS dest (base + off) RLE_BYTE with
            | none =>
              cases hD : decodeRunAux blk n (bi + 2) with
              | none => rfl
              | some r =>
                dsimp only
                cases r with
                | mk l e =>
                  dsimp only
                  have hnone : writeBytes dest (base + off) (RLE_BYTE :: l) = none := by
                    rw [writeBytes_cons, hw]
                  rw [hnone]
            | some d1 =>
              dsimp only
              rw [ih (off + 1) (bi + 2) d1]
              cases hD : decodeRunAux blk n (bi + 2) with
              | none => rfl
              | some r =>
                dsimp only
                cases r with
                | mk l e =>
                  dsimp only
                  have hcons : writeBytes dest (base + off) (RLE_BYTE :: l)
                      = writeBytes d1 (base + off + 1) l := by
                    rw [writeBytes_cons, hw]
                  rw [hcons, show base + (off + 1) = base + off + 1 by omega]
                  cases writeBytes d1 (base + off + 1) l <;>
                    simp [List.length_cons] <;> omega
          · rw [if_neg hb1, if_neg hb1]
            cases hr2 : rdB blk (bi + 2) with
            | none => rfl
            | some cnt =>
              dsimp only
              cases hw : writeBytes dest (base + off) (List.replicate cnt b1) with
              | none =>
                cases hD : decodeRunAux blk n (bi + 3) with
                | none => rfl
                | some r =>
                  dsimp only
                  cases r with
                  | mk l e =>
                    dsimp only
                    rw [writeBytes_append, hw]
              | some d1 =>
                dsimp only
                rw [ih (off + cnt) (bi + 3) d1]
                cases hD : decodeRunAux blk n (bi + 3) with
                | none => rfl
                | some r =>
                  dsimp only
                  cases r with
                  | mk l e =>
                    dsimp only
                    have hshift : base + off + (List.replicate cnt b1).length
                        = base + (off + cnt) := by
                      rw [List.length_replicate]
                      omega
                    rw [writeBytes_append, hw, hshift]
                    dsimp only
                    cases writeBytes d1 (base + (off + cnt)) l with
                    | none => rfl
                    | some d2 =>
                      dsimp only
                      rw [List.length_append, List.length_replicate,
                        show off + cnt + l.length = off + (cnt + l.length) from by omega]
      · rw [if_neg hc0, if_neg hc0]
        by_cases he0 : blk bi = SPECIAL_BYTE
        · rw [if_pos he0, if_pos he0]
          cases hr1 : rdB blk (bi + 1) with
          | none => rfl
          | some b1 =>
            dsimp only
            by_cases hb1 : b1 = SPECIAL_BYTE
            · rw [if_pos hb1, if_pos hb1]
              cases hw : wrS dest (base + off) SPECIAL_BYTE with
              | none =>
                cases hD : decodeRunAux blk n (bi + 2) with
                | none => rfl
                | some r =>
                  dsimp only
                  cases r with
                  | mk l e =>
                    dsimp only
                    have hnone : writeBytes dest (base + off) (SPECIAL_BYTE :: l) = none := by
                      rw [writeBytes_cons, hw]
                    rw [hnone]
              | some d1 =>
                dsimp only
                rw [ih (off + 1) (bi + 2) d1]
                cases hD : decodeRunAux blk n (bi + 2) with
                | none => rfl
                | some r =>
                  dsimp only
                  cases r with
                  | mk l e =>
                    dsimp only
                    have hcons : writeBytes dest (base + off) (SPECIAL_BYTE :: l)
                        = writeBytes d1 (base + off + 1) l := by
                      rw [writeBytes_cons, hw]
                    rw [hcons, show base + (off + 1) = base + off + 1 by omega]
                    cases writeBytes d1 (base + off + 1) l <;>
                      simp [List.length_cons] <;> omega
            · rw [if_neg hb1, if_neg hb1]
              by_cases hinst : b1 = DEF_INST_BYTE
              · rw [if_pos hinst, if_pos hinst]
                cases hw : writeBytes dest (base + off) DEF_INST_VALUES with
                | none =>
                  cases hD : decodeRunAux blk n (bi + 2) with
                  | none => rfl
                  | some r =>
                    dsimp only
                    cases r with
                    | mk l e =>
                      dsimp only
                      rw [writeBytes_append, hw]
                | some d1 =>
                  dsimp only
                  rw [ih (off + DEF_INST_SIZE) (bi + 2) d1]
                  cases hD : decodeRunAux blk n (bi + 2) with
                  | none => rfl
                  | some r =>
                    dsimp only
                    cases r with
                    | mk l e =>
                      dsimp only
                      rw [writeBytes_append, hw, DEF_INST_VALUES_length,
                        show base + off + DEF_INST_SIZE
                          = base + (off + DEF_INST_SIZE) from by omega]
                      dsimp only
                      cases writeBytes d1 (base + (off + DEF_INST_SIZE)) l with
                      | none => rfl
                      | some d2 =>
                        dsimp only
                        rw [List.length_append, DEF_INST_VALUES_length,
                          show off + DEF_INST_SIZE + l.length
                            = off + (DEF_INST_SIZE + l.length) from by omega]
              · rw [if_neg hinst, if_neg hinst]
                by_cases hwave : b1 = DEF_WAVE_BYTE
                · rw [if_pos hwave, if_pos hwave]
                  cases hw : writeBytes dest (base + off) DEF_WAVE_VALUES with
                  | none =>
                    cases hD : decodeRunAux blk n (bi + 2) with
                    | none => rfl
                    | some r =>
                      dsimp only
                      cases r with
                      | mk l e =>
                        dsimp only
                        rw [writeBytes_append, hw]
                  | some d1 =>
                    dsimp only
                    rw [ih (off + DEF_WAVE_SIZE) (bi + 2) d1]
                    cases hD : decodeRunAux blk n (bi + 2) with
                    | none => rfl
                    | some r =>
                      dsimp only
                      cases r with
                      | mk l e =>
                        dsimp only
                        rw [writeBytes_append, hw, DEF_WAVE_VALUES_length,
                          show base + off + DEF_WAVE_SIZE
                            = base + (off + DEF_WAVE_SIZE) from by omega]
                        dsimp only
                        cases writeBytes d1 (base + (off + DEF_WAVE_SIZE)) l with
                        | none => rfl
                        | some d2 =>
                          dsimp only
                          rw [List.length_append, DEF_WAVE_VALUES_length,
                            show off + DEF_WAVE_SIZE + l.length
                              = off + (DEF_WAVE_SIZE + l.length) from by omega]
                · rw [if_neg hwave, if_neg hwave]
                  by_cases heof : b1 = EOF_BYTE
                  · rw [if_pos heof, if_pos heof]
                    simp [writeBytes]
                  · rw [if_neg heof, if_neg heof]
                    simp [writeBytes]
        · rw [if_neg he0, if_neg he0]
          cases hw : wrS dest (base + off) (blk bi) with
          | none =>
            cases hD : decodeRunAux blk n (bi + 1) with
            | none => rfl
            | some r =>
              dsimp only
              cases r with
              | mk l e =>
                dsimp only
                have hnone : writeBytes dest (base + off) (blk bi :: l) = none := by
                  rw [writeBytes_cons, hw]
                rw [hnone]
          | some d1 =>
            dsimp only
            rw [ih (off + 1) (bi + 1) d1]
            cases hD : decodeRunAux blk n (bi + 1) with
            | none => rfl
            | some r =>
              dsimp only
              cases r with
              | mk l e =>
                dsimp only
                have hcons : writeBytes dest (base + off) (blk bi :: l)
                    = writeBytes d1 (base + off + 1) l := by
                  rw [writeBytes_cons, hw]
                rw [hcons, show base + (off + 1) = base + off + 1 by omega]
                cases writeBytes d1 (base + off + 1) l <;>
                  simp [List.length_cons] <;> omega
    · rw [if_neg hbi, if_neg hbi]
      simp [writeBytes]

/-! ### Compressor-side facts for the round trip (C4) -/

/-- A successful block write certifies its bound and names the result. -/
theorem wrB_some {f : Nat → Nat} {i v : Nat} {g : Nat → Nat}
    (h : wrB f i v = some g) : i < BLOCK_SIZE ∧ g = upd f i v := by
  unfold wrB at h
  split at h
  · exact ⟨by assumption, (Option.some.inj h).symm⟩
  · exact absurd h (by simp)

/-- An in-bounds block read. -/
theorem rdB_lt {f : Nat → Nat} {i : Nat} (h : i < BLOCK_SIZE) :
    rdB f i = some (f i) := by
  unfold rdB
  rw [if_pos h]

theorem upd_same (f : Nat → Nat) (i v : Nat) : upd f i v i = v := by simp [upd]

theorem upd_other (f : Nat → Nat) {i j : Nat} (v : Nat) (h : j ≠ i) :
    upd f i v j = f j := by simp [upd, h]

/-- `listRange` length. -/
theorem listRange_length (f : Nat → Nat) (s n : Nat) :
    (listRange f s n).length = n := by simp [listRange]

/-- Splitting a `listRange` window. -/
theorem listRange_append (f : Nat → Nat) (s : Nat) :
    ∀ m n, listRange f s (m + n) = listRange f s m ++ listRange f (s + m) n := by
  intro m
  induction m generalizing s with
  | zero =>
    intro n
    simp [listRange]
  | succ k ih =>
    intro n
    rw [show k + 1 + n = (k + n) + 1 from by omega, listRange_succ, ih (s + 1) n,
      listRange_succ, List.cons_append]
    rw [show s + 1 + k = s + (k + 1) from by omega]

/-- A constant window is a `replicate`. -/
theorem listRange_const {f : Nat → Nat} {c : Nat} :
    ∀ n s, (∀ j, j < n → f (s + j) = c) → listRange f s n = List.replicate n c := by
  intro n
  induction n with
  | zero => intro s _; simp [listRange]
  | succ k ih =>
    intro s h
    rw [listRange_succ, List.replicate_succ]
    have h0 : f s = c := by simpa using h 0 (by omega)
    rw [h0, ih (s + 1) (fun j hj => by
      have := h (j + 1) (by omega)
      rwa [show s + (j + 1) = s + 1 + j from by omega] at this)]

/-- Indexing a `listRange`. -/
theorem listRange_getD (f : Nat → Nat) :
    ∀ n s k, k < n → (listRange f s n).getD k 0 = f (s + k) := by
  intro n
  induction n with
  | zero => intro s k h; omega
  | succ m ih =>
    intro s k h
    rw [listRange_succ]
    cases k with
    | zero => simp
    | succ k1 =>
      rw [List.getD_cons_succ, ih (s + 1) k1 (by omega),
        show s + 1 + k1 = s + (k1 + 1) from by omega]

/-- Extracting the pointwise guarantee of the executable dictionary check. -/
theorem dictFreeAux_spec (f : Nat → Nat) :
    ∀ fuel p, dictFreeAux f fuel p = true →
      ∀ q, p ≤ q → q < p + fuel → q + DEF_INST_SIZE ≤ SRAM_SIZE →
        is_def_inst f q = false ∧ is_def_wave f q = false := by
  intro fuel
  induction fuel with
  | zero => intro p _ q _ _ _; omega
  | succ n ih =>
    intro p h q hq1 hq2 hq3
    rw [dictFreeAux] at h
    by_cases hp : p + DEF_INST_SIZE ≤ SRAM_SIZE
    · rw [if_pos hp] at h
      by_cases hinst : is_def_inst f p
      · rw [if_pos hinst] at h
        exact absurd h (by simp)
      · rw [if_neg hinst] at h
        by_cases hwave : is_def_wave f p
        · rw [if_pos hwave] at h
          exact absurd h (by simp)
        · rw [if_neg hwave] at h
          by_cases hqp : q = p
          · subst hqp
            exact ⟨by simpa using hinst, by simpa using hwave⟩
          · exact ih (p + 1) h q (by omega) (by omega) hq3
    · rw [if_neg hp] at h
      omega

/-- `dictFreeB` means no window of the buffer matches a dictionary pattern. -/
theorem dictFreeB_spec {f : Nat → Nat} (h : dictFreeB f = true) :
    ∀ q, q + DEF_INST_SIZE ≤ SRAM_SIZE →
      is_def_inst f q = false ∧ is_def_wave f q = false := by
  intro q hq
  have hlt : q < 0 + SRAM_SIZE := by
    have : DEF_INST_SIZE = 0x10 := rfl
    have : SRAM_SIZE = 0x8000 := rfl
    omega
  exact dictFreeAux_spec f SRAM_SIZE 0 h q (by omega) hlt hq

/-- What the run-length lookahead loop guarantees, starting from a state
where `lookahead = repeat = la` and the first `la` bytes already match. -/
theorem runLengthAux_spec (data : Nat → Nat) (p : Nat) :
    ∀ fuel la, 1 ≤ la → p + la ≤ SRAM_SIZE →
      (∀ j, j < la → data (p + j) = data p) →
      1 ≤ runLengthAux data p fuel la la ∧
      p + runLengthAux data p fuel la la ≤ SRAM_SIZE ∧
      ∀ j, j < runLengthAux data p fuel la la → data (p + j) = data p := by
  intro fuel
  induction fuel with
  | zero =>
    intro la h1 h2 h3
    rw [runLengthAux]
    exact ⟨h1, h2, h3⟩
  | succ n ih =>
    intro la h1 h2 h3
    rw [runLengthAux]
    by_cases hg : p + la < SRAM_SIZE ∧ la < 0xff
    · rw [if_pos hg]
      by_cases he : data p = data (p + la)
      · rw [if_pos he]
        exact ih (la + 1) (by omega) (by omega)
          (fun j hj => by
            by_cases hjl : j = la
            · subst hjl; exact he.symm
            · exact h3 j (by omega))
      · rw [if_neg he]
        exact ⟨h1, h2, h3⟩
    · rw [if_neg hg]
      exact ⟨h1, h2, h3⟩

/-- The run found by `runLength`: nonempty, in bounds, and constant. -/
theorem runLength_spec (data : Nat → Nat) (p : Nat) (hp : p < SRAM_SIZE) :
    1 ≤ runLength data p ∧ p + runLength data p ≤ SRAM_SIZE ∧
      ∀ j, j < runLength data p → data (p + j) = data p := by
  unfold runLength
  exact runLengthAux_spec data p SRAM_SIZE 1 (by omega) (by omega)
    (fun j hj => by
      have : j = 0 := by omega
      subst this
      rw [Nat.add_zero])

/-- What a successful literal-run emission does: earlier block bytes are
untouched and the emitted window holds the source bytes, in bounds. -/
theorem emitLits_spec (data : Nat → Nat) :
    ∀ k p bi dest d, emitLits data k p bi dest = some d →
      (∀ j, j < bi → d j = dest j) ∧
      (∀ m, m < k → d (bi + m) = data (p + m) ∧ bi + m < BLOCK_SIZE) := by
  intro k
  induction k with
  | zero =>
    intro p bi dest d h
    rw [emitLits] at h
    cases h
    exact ⟨fun _ _ => rfl, fun m hm => by omega⟩
  | succ n ih =>
    intro p bi dest d h
    rw [emitLits] at h
    cases hw : wrB dest bi (data p) with
    | none => rw [hw] at h; exact absurd h (by simp)
    | some d1 =>
      rw [hw] at h
      obtain ⟨hbi, hd1⟩ := wrB_some hw
      obtain ⟨hfr, hwin⟩ := ih (p + 1) (bi + 1) d1 d h
      refine ⟨?_, ?_⟩
      · intro j hj
        rw [hfr j (by omega), hd1, upd_other dest (data p) (by omega)]
      · intro m hm
        cases m with
        | zero =>
          refine ⟨?_, by simpa using hbi⟩
          rw [Nat.add_zero, Nat.add_zero, hfr bi (by omega), hd1, upd_same]
        | succ m1 =>
          obtain ⟨hv, hb⟩ := hwin m1 (by omega)
          refine ⟨?_, by omega⟩
          rw [show bi + (m1 + 1) = bi + 1 + m1 from by omega, hv,
            show p + 1 + m1 = p + (m1 + 1) from by omega]

/-- Decoding a window of plain literal bytes prepends them to whatever the
scan decodes after the window. -/
theorem decode_literals (blkd data : Nat → Nat) :
    ∀ k p bi,
      (∀ m, m < k → blkd (bi + m) = data (p + m) ∧ data (p + m) ≠ RLE_BYTE ∧
        data (p + m) ≠ SPECIAL_BYTE ∧ bi + m < BLOCK_SIZE) →
      ∀ (l : List Nat) (e : Except LsdjErr Nat),
      (∀ f1, BLOCK_SIZE - (bi + k) < f1 → decodeRunAux blkd f1 (bi + k) = some (l, e)) →
      ∀ f2, BLOCK_SIZE - bi < f2 →
        decodeRunAux blkd f2 bi = some (listRange data p k ++ l, e) := by
  intro k
  induction k with
  | zero =>
    intro p bi _ l e hnext f2 hf2
    have := hnext f2 (by omega)
    rw [Nat.add_zero] at this
    rw [this]
    simp [listRange]
  | succ n ih =>
    intro p bi hlit l e hnext f2 hf2
    obtain ⟨hb0, hc0, he0, hbi⟩ := by simpa using hlit 0 (by omega)
    cases f2 with
    | zero => omega
    | succ m =>
      rw [decodeRunAux, if_pos hbi, hb0, if_neg hc0, if_neg he0]
      have hrest := ih (p + 1) (bi + 1)
        (fun j hj => by
          have h1 := hlit (j + 1) (by omega)
          rw [show bi + (j + 1) = bi + 1 + j from by omega,
            show p + (j + 1) = p + 1 + j from by omega] at h1
          exact h1)
        l e
        (fun f1 hf1 => by
          have := hnext f1 (by omega)
          rwa [show bi + (n + 1) = bi + 1 + n from by omega] at this)
        m (by omega)
      rw [hrest]
      dsimp only
      rw [listRange_succ, List.cons_append]

/-- Main compressor-side invariant: when a `compress` run completes with
return value 0 (no chain split), the final offset covers the whole SRAM
tail, block bytes before the write window are untouched, and the pure token
decoder recovers exactly the consumed source bytes from the written block. -/
theorem compressAux_decode (data : Nat → Nat) (base bn : Nat)
    (hbn : bn + 1 < 256)
    (hdict : ∀ p, p + DEF_INST_SIZE ≤ SRAM_SIZE →
      is_def_inst data p = false ∧ is_def_wave data p = false) :
    ∀ fuel off bi dest dest1 off1,
      compressAux data base bn fuel off bi dest = some (dest1, off1, 0) →
      base + off ≤ SRAM_SIZE →
      off1 = SRAM_SIZE - base ∧
      (∀ j, j < bi → dest1 j = dest j) ∧
      ∀ f2, BLOCK_SIZE - bi < f2 →
        decodeRunAux dest1 f2 bi
          = some (listRange data (base + off) (SRAM_SIZE - (base + off)),
                  Except.ok 0) := by
  intro fuel
  induction fuel with
  | zero =>
    intro off bi dest dest1 off1 h _
    rw [compressAux] at h
    exact absurd h (by simp)
  | succ n ih =>
    intro off bi dest dest1 off1 h hbase
    rw [compressAux] at h
    by_cases hin : base + off < SRAM_SIZE
    · rw [if_pos hin] at h
      have hsplit : listRange data (base + off) (SRAM_SIZE - (base + off))
          = data (base + off)
            :: listRange data (base + off + 1) (SRAM_SIZE - (base + off + 1)) := by
        rw [show SRAM_SIZE - (base + off) = (SRAM_SIZE - (base + off + 1)) + 1
          from by omega, listRange_succ]
      by_cases hc0 : data (base + off) = RLE_BYTE
      · -- doubled RLE-escape token
        rw [if_pos hc0] at h
        cases hW1 : wrB dest bi RLE_BYTE with
        | none => rw [hW1] at h; exact absurd h (by simp)
        | some d1 =>
          rw [hW1] at h
          dsimp only at h
          cases hW2 : wrB d1 (bi + 1) RLE_BYTE with
          | none => rw [hW2] at h; exact absurd h (by simp)
          | some d2 =>
            rw [hW2] at h
            dsimp only at h
            obtain ⟨hbi, hd1⟩ := wrB_some hW1
            obtain ⟨hbi1, hd2⟩ := wrB_some hW2
            obtain ⟨ho, hfr, hdec⟩ := ih (off + 1) (bi + 2) d2 dest1 off1 h (by omega)
            have hv0 : dest1 bi = RLE_BYTE := by
              rw [hfr bi (by omega), hd2, upd_other d1 RLE_BYTE (by omega), hd1, upd_same]
            have hv1 : dest1 (bi + 1) = RLE_BYTE := by
              rw [hfr (bi + 1) (by omega), hd2, upd_same]
            refine ⟨ho, ?_, ?_⟩
            · intro j hj
              rw [hfr j (by omega), hd2, upd_other d1 RLE_BYTE (by omega), hd1,
                upd_other dest RLE_BYTE (by omega)]
            · intro f2 hf2
              cases f2 with
              | zero => omega
              | succ m =>
                rw [decodeRunAux, if_pos hbi, hv0, if_pos rfl, rdB_lt hbi1, hv1]
                dsimp only
                rw [if_pos rfl, hdec m (by omega)]
                dsimp only
                rw [hsplit, hc0, show base + off + 1 = base + (off + 1) from by omega]
      · rw [if_neg hc0] at h
        by_cases he0 : data (base + off) = SPECIAL_BYTE
        · -- doubled special-escape token
          rw [if_pos he0] at h
          cases hW1 : wrB dest bi SPECIAL_BYTE with
          | none => rw [hW1] at h; exact absurd h (by simp)
          | some d1 =>
            rw [hW1] at h
            dsimp only at h
            cases hW2 : wrB d1 (bi + 1) SPECIAL_BYTE with
            | none => rw [hW2] at h; exact absurd h (by simp)
            | some d2 =>
              rw [hW2] at h
              dsimp only at h
              obtain ⟨hbi, hd1⟩ := wrB_some hW1
              obtain ⟨hbi1, hd2⟩ := wrB_some hW2
              obtain ⟨ho, hfr, hdec⟩ := ih (off + 1) (bi + 2) d2 dest1 off1 h (by omega)
              have hv0 : dest1 bi = SPECIAL_BYTE := by
                rw [hfr bi (by omega), hd2, upd_other d1 SPECIAL_BYTE (by omega), hd1,
                  upd_same]
              have hv1 : dest1 (bi + 1) = SPECIAL_BYTE := by
                rw [hfr (bi + 1) (by omega), hd2, upd_same]
              refine ⟨ho, ?_, ?_⟩
              · intro j hj
                rw [hfr j (by omega), hd2, upd_other d1 SPECIAL_BYTE (by omega), hd1,
                  upd_other dest SPECIAL_BYTE (by omega)]
              · intro f2 hf2
                cases f2 with
                | zero => omega
                | succ m =>
                  rw [decodeRunAux, if_pos hbi, hv0,
                    if_neg (show ¬SPECIAL_BYTE = RLE_BYTE from by decide),
                    if_pos rfl, rdB_lt hbi1, hv1]
                  dsimp only
                  rw [if_pos rfl, hdec m (by omega)]
                  dsimp only
                  rw [hsplit, he0, show base + off + 1 = base + (off + 1) from by omega]
        · rw [if_neg he0] at h
          by_cases hbig : BLOCK_SIZE < bi + 4
          · -- chain-pointer token: return value is nonzero, contradiction
            rw [if_pos hbig] at h
            cases hW1 : wrB dest bi SPECIAL_BYTE with
            | none => rw [hW1] at h; exact absurd h (by simp)
            | some d1 =>
              rw [hW1] at h
              dsimp only at h
              cases hW2 : wrB d1 (bi + 1) ((bn + 1) % 256) with
              | none => rw [hW2] at h; exact absurd h (by simp)
              | some d2 =>
                rw [hW2] at h
                dsimp only at h
                rw [Option.some.injEq, Prod.mk.injEq, Prod.mk.injEq] at h
                have := h.2.2
                rw [Nat.mod_eq_of_lt hbn] at this
                omega
          · rw [if_neg hbig] at h
            by_cases hg1 : base + off + DEF_INST_SIZE ≤ SRAM_SIZE
                ∧ is_def_inst data (base + off) = true
            · exact absurd hg1.2 (by rw [(hdict (base + off) hg1.1).1]; simp)
            · rw [if_neg hg1] at h
              by_cases hg2 : base + off + DEF_WAVE_SIZE ≤ SRAM_SIZE
                  ∧ is_def_wave data (base + off) = true
              · exact absurd hg2.2 (by
                  have : DEF_WAVE_SIZE = DEF_INST_SIZE := rfl
                  rw [(hdict (base + off) (by omega)).2]
                  simp)
              · rw [if_neg hg2] at h
                dsimp only at h
                obtain ⟨hr1, hr2, hr3⟩ := runLength_spec data (base + off) hin
                have hsplitr : listRange data (base + off) (SRAM_SIZE - (base + off))
                    = listRange data (base + off) (runLength data (base + off))
                      ++ listRange data (base + off + runLength data (base + off))
                        (SRAM_SIZE - (base + off + runLength data (base + off))) := by
                  rw [← listRange_append]
                  congr 1
                  omega
                by_cases hr4 : runLength data (base + off) ≤ 3
                · -- short run: individual literal bytes
                  rw [if_pos hr4] at h
                  cases hE : emitLits data (runLength data (base + off))
                      (base + off) bi dest with
                  | none => rw [hE] at h; exact absurd h (by simp)
                  | some d1 =>
                    rw [hE] at h
                    dsimp only at h
                    obtain ⟨ho, hfr, hdec⟩ :=
                      ih (off + runLength data (base + off))
                        (bi + runLength data (base + off)) d1 dest1 off1 h (by omega)
                    obtain ⟨hefr, hewin⟩ := emitLits_spec data
                      (runLength data (base + off)) (base + off) bi dest d1 hE
                    refine ⟨ho, ?_, ?_⟩
                    · intro j hj
                      rw [hfr j (by omega), hefr j hj]
                    · intro f2 hf2
                      have hlits := decode_literals dest1 data
                        (runLength data (base + off)) (base + off) bi
                        (fun m hm => by
                          obtain ⟨hv, hb⟩ := hewin m hm
                          refine ⟨?_, ?_, ?_, hb⟩
                          · rw [hfr (bi + m) (by omega), hv]
                          · rw [hr3 m hm]; exact hc0
                          · rw [hr3 m hm]; exact he0)
                        (listRange data (base + off + runLength data (base + off))
                          (SRAM_SIZE - (base + off + runLength data (base + off))))
                        (Except.ok 0)
                        (fun f1 hf1 => by
                          rw [hdec f1 hf1]
                          rw [show base + (off + runLength data (base + off))
                            = base + off + runLength data (base + off) from by omega])
                        f2 hf2
                      rw [hlits, hsplitr]
                · -- long run: a 3-byte RLE token
                  rw [if_neg hr4] at h
                  cases hW1 : wrB dest bi RLE_BYTE with
                  | none => rw [hW1] at h; exact absurd h (by simp)
                  | some d1 =>
                    rw [hW1] at h
                    dsimp only at h
                    cases hW2 : wrB d1 (bi + 1) (data (base + off)) with
                    | none => rw [hW2] at h; exact absurd h (by simp)
                    | some d2 =>
                      rw [hW2] at h
                      dsimp only at h
                      cases hW3 : wrB d2 (bi + 2) (runLength data (base + off)) with
                      | none => rw [hW3] at h; exact absurd h (by simp)
                      | some d3 =>
                        rw [hW3] at h
                        dsimp only at h
                        obtain ⟨hbi, hd1⟩ := wrB_some hW1
                        obtain ⟨hbi1, hd2⟩ := wrB_some hW2
                        obtain ⟨hbi2, hd3⟩ := wrB_some hW3
                        obtain ⟨ho, hfr, hdec⟩ :=
                          ih (off + runLength data (base + off)) (bi + 3) d3
                            dest1 off1 h (by omega)
                        have hv0 : dest1 bi = RLE_BYTE := by
                          rw [hfr bi (by omega), hd3,
                            upd_other d2 (runLength data (base + off)) (by omega), hd2,
                            upd_other d1 (data (base + off)) (by omega), hd1, upd_same]
                        have hv1 : dest1 (bi + 1) = data (base + off) := by
                          rw [hfr (bi + 1) (by omega), hd3,
                            upd_other d2 (runLength data (base + off)) (by omega), hd2,
                            upd_same]
                        have hv2 : dest1 (bi + 2) = runLength data (base + off) := by
                          rw [hfr (bi + 2) (by omega), hd3, upd_same]
                        refine ⟨ho, ?_, ?_⟩
                        · intro j hj
                          rw [hfr j (by omega), hd3,
                            upd_other d2 (runLength data (base + off)) (by omega), hd2,
                            upd_other d1 (data (base + off)) (by omega), hd1,
                            upd_other dest RLE_BYTE (by omega)]
                        · intro f2 hf2
                          cases f2 with
                          | zero => omega
                          | succ m =>
                            rw [decodeRunAux, if_pos hbi, hv0, if_pos rfl,
                              rdB_lt hbi1, hv1]
                            dsimp only
                            rw [if_neg hc0, rdB_lt hbi2, hv2]
                            dsimp only
                            rw [hdec m (by omega)]
                            dsimp only
                            rw [hsplitr,
                              listRange_const (runLength data (base + off))
                                (base + off) hr3,
                              show base + (off + runLength data (base + off))
                                = base + off + runLength data (base + off)
                                from by omega]
    · -- source exhausted: the 2-byte EOF token
      rw [if_neg hin] at h
      cases hW1 : wrB dest bi SPECIAL_BYTE with
      | none => rw [hW1] at h; exact absurd h (by simp)
      | some d1 =>
        rw [hW1] at h
        dsimp only at h
        cases hW2 : wrB d1 (bi + 1) EOF_BYTE with
        | none => rw [hW2] at h; exact absurd h (by simp)
        | some d2 =>
          rw [hW2] at h
          dsimp only at h
          rw [Option.some.injEq, Prod.mk.injEq, Prod.mk.injEq] at h
          obtain ⟨hde, hoff, _⟩ := h
          obtain ⟨hbi, hd1⟩ := wrB_some hW1
          obtain ⟨hbi1, hd2⟩ := wrB_some hW2
          have hv0 : dest1 bi = SPECIAL_BYTE := by
            rw [← hde, hd2, upd_other d1 EOF_BYTE (by omega), hd1, upd_same]
          have hv1 : dest1 (bi + 1) = EOF_BYTE := by
            rw [← hde, hd2, upd_same]
          refine ⟨by omega, ?_, ?_⟩
          · intro j hj
            rw [← hde, hd2, upd_other d1 EOF_BYTE (by omega), hd1,
              upd_other dest SPECIAL_BYTE (by omega)]
          · intro f2 hf2
            have hz : SRAM_SIZE - (base + off) = 0 := by omega
            cases f2 with
            | zero => omega
            | succ m =>
              rw [decodeRunAux, if_pos hbi, hv0,
                if_neg (show ¬SPECIAL_BYTE = RLE_BYTE from by decide),
                if_pos rfl, rdB_lt hbi1, hv1]
              dsimp only
              rw [if_neg (show ¬EOF_BYTE = SPECIAL_BYTE from by decide),
                if_neg (show ¬EOF_BYTE = DEF_INST_BYTE from by decide),
                if_neg (show ¬EOF_BYTE = DEF_WAVE_BYTE from by decide),
                if_pos rfl, hz]
              simp [listRange]

/-- C9.  The decompressor is not atomic on failure: whenever `decompress`
returns the malformed-format error, the bytes decoded before the failure (the
pure decode stream of the block) have already been stored in the destination
SRAM at the cursor, the cursor has advanced by exactly their number — the
same final-state update the success paths perform — and nothing outside that
window changed. -/
theorem c9_decompress_error (blk : LsdjBlock) (dest : LsdjSram)
    (d : LsdjSram) (e : LsdjErr)
    (h : blk.decompress dest = some (d, Except.error e)) :
    ∃ l, decodeRun blk.data = some (l, Except.error e) ∧
      writeBytes dest.data dest.position l = some d.data ∧
      d.position = dest.position + l.length ∧
      (∀ j, j < dest.position → d.data j = dest.data j) ∧
      (∀ j, dest.position + l.length ≤ j → d.data j = dest.data j) ∧
      (∀ k, k < l.length → d.data (dest.position + k) = l.getD k 0) := by
  unfold LsdjBlock.decompress at h
  rw [decompressAux_eq_decodeRun] at h
  cases hD : decodeRunAux blk.data (BLOCK_SIZE + 1) 0 with
  | none => rw [hD] at h; exact absurd h (by simp)
  | some r =>
    cases r with
    | mk l e1 =>
      rw [hD] at h
      dsimp only at h
      cases hW : writeBytes dest.data (dest.position + 0) l with
      | none => rw [hW] at h; exact absurd h (by simp)
      | some g =>
        rw [hW] at h
        dsimp only at h
        rw [Option.some.injEq, Prod.mk.injEq] at h
        obtain ⟨hd, he⟩ := h
        rw [Nat.add_zero] at hW
        obtain ⟨hlo, hhi, hwin, _⟩ := writeBytes_spec l dest.data dest.position g hW
        refine ⟨l, ?_, ?_, ?_, ?_, ?_, ?_⟩
        · rw [decodeRun, hD, ← he]
        · rw [hW, ← hd]
        · rw [← hd]
          simp
        · intro j hj
          rw [← hd]
          exact hlo j hj
        · intro j hj
          rw [← hd]
          exact hhi j hj
        · intro k hk
          rw [← hd]
          exact hwin k hk

/-- C9 witness: the all-zero block decodes 512 literal zeros, then runs off
the block end with the format error; the decoded zeros are in the
destination and the cursor advanced accordingly. -/
theorem c9_decompress_error_witness :
    ∃ l, decodeRun blkZ.data = some (l, Except.error LsdjErr.badFmt) ∧
      writeBytes LsdjSram.empty.data LsdjSram.empty.position l = some c9dest.data ∧
      c9dest.position = LsdjSram.empty.position + l.length ∧
      (∀ j, j < LsdjSram.empty.position → c9dest.data j = LsdjSram.empty.data j) ∧
      (∀ j, LsdjSram.empty.position + l.length ≤ j →
        c9dest.data j = LsdjSram.empty.data j) ∧
      (∀ k, k < l.length → c9dest.data (LsdjSram.empty.position + k) = l.getD k 0) :=
  c9_decompress_error blkZ LsdjSram.empty c9dest LsdjErr.badFmt rfl

/-- C6 (amended).  `import_song` validates its preconditions before mutating
anything, in the source's priority order: `SongsFull` when
`next_available_song` is none; otherwise `FormatError` when the byte length is
not a multiple of 0x200; otherwise `NotEnoughBlocks` when `bytes.len()/0x200`
exceeds `BLOCK_COUNT - blocks_used()`.  On each failure the save image is
returned unchanged. -/
theorem c6_amended (save : LsdjSave) (bytes t : List Nat) :
    (save.metadata.next_available_song = none →
      save.import_song bytes t = some (save, Except.error LsdjErr.songsFull)) ∧
    (∀ s, save.metadata.next_available_song = some s →
      bytes.length % BLOCK_SIZE ≠ 0 →
      save.import_song bytes t = some (save, Except.error LsdjErr.badFmt)) ∧
    (∀ s, save.metadata.next_available_song = some s →
      bytes.length % BLOCK_SIZE = 0 →
      BLOCK_COUNT - save.metadata.blocks_used < bytes.length / BLOCK_SIZE →
      save.import_song bytes t = some (save, Except.error LsdjErr.noBlocks)) := by
  refine ⟨?_, ?_, ?_⟩
  · intro h
    unfold LsdjSave.import_song
    rw [h]
  · intro s hs hlen
    unfold LsdjSave.import_song
    simp only [hs]
    rw [if_pos hlen]
  · intro s hs hlen hfree
    unfold LsdjSave.import_song
    simp only [hs]
    rw [if_neg (show ¬bytes.length % BLOCK_SIZE ≠ 0 from fun hc => hc hlen)]
    rw [if_pos hfree]

/-- C6 (amended) witness: the three failure branches at concrete inputs —
a bad-length import on a full-songs save fails `SongsFull`, a bad-length
one on the empty save fails `FormatError`, and a one-block import on a
save with no free block below 191 fails `NotEnoughBlocks`. -/
theorem c6_amended_witness :
    LsdjSave.import_song save32 [0] title0 =
      some (save32, Except.error LsdjErr.songsFull) ∧
    LsdjSave.import_song LsdjSave.empty [0] title0 =
      some (LsdjSave.empty, Except.error LsdjErr.badFmt) ∧
    LsdjSave.import_song save190 (List.replicate 0x200 5) title0 =
      some (save190, Except.error LsdjErr.noBlocks) :=
  ⟨(c6_amended save32 [0] title0).1 rfl,
   (c6_amended LsdjSave.empty [0] title0).2.1 0 rfl (by decide),
   (c6_amended save190 (List.replicate 0x200 5) title0).2.2 1 rfl
     (by simp [BLOCK_SIZE]) (by decide)⟩

/-- C10 witness: the empty save image. -/
theorem c10_import_empty_witness :
    ∃ save1, LsdjSave.empty.import_song [] title0 = some (save1, Except.ok 0) ∧
      save1.sram = LsdjSave.empty.sram ∧
      save1.blocks = LsdjSave.empty.blocks ∧
      save1.metadata.alloc_table = LsdjSave.empty.metadata.alloc_table ∧
      save1.metadata.version_table = LsdjSave.empty.metadata.version_table ∧
      save1.metadata.title_table 0 = title0 ∧
      ∀ j, j ≠ 0 → save1.metadata.title_table j = LsdjSave.empty.metadata.title_table j :=
  c10_import_empty LsdjSave.empty title0 0 rfl

/-- C4.  Round trip: for every SRAM buffer that contains neither of the two
16-byte dictionary patterns (`dictFreeB`) and whose compression from position
0 into an empty block completes in that single block (return value 0),
decompressing the produced block into an empty SRAM succeeds with `Ok 0`,
advances the destination cursor by the full 0x8000 bytes, and reproduces
every byte of the original buffer exactly. -/
theorem c4_roundtrip (src dest1 : LsdjSram) (blk : LsdjBlock)
    (hpos : src.position = 0)
    (hdictf : dictFreeB src.data = true)
    (hc : src.compress LsdjBlock.empty 1 = some (dest1, blk, 0)) :
    ∃ out : LsdjSram,
      blk.decompress LsdjSram.empty = some (out, Except.ok 0) ∧
      out.position = SRAM_SIZE ∧
      ∀ i, i < SRAM_SIZE → out.data i = src.data i := by
  unfold LsdjSram.compress at hc
  cases hca : compressAux src.data src.position 1 (SRAM_SIZE + 1) 0 0
      LsdjBlock.empty.data with
  | none => rw [hca] at hc; exact absurd hc (by simp)
  | some r =>
    obtain ⟨bd, off, ret⟩ := r
    rw [hca] at hc
    dsimp only at hc
    rw [Option.some.injEq, Prod.mk.injEq, Prod.mk.injEq] at hc
    obtain ⟨hd1, hblk, hret⟩ := hc
    subst hblk
    subst hret
    rw [hpos] at hca
    obtain ⟨ho, hfr, hdec⟩ :=
      compressAux_decode src.data 0 1 (by decide) (dictFreeB_spec hdictf)
        (SRAM_SIZE + 1) 0 0 LsdjBlock.empty.data bd off hca (by omega)
    have hdec1 : decodeRunAux bd (BLOCK_SIZE + 1) 0
        = some (listRange src.data 0 SRAM_SIZE, Except.ok 0) := by
      have := hdec (BLOCK_SIZE + 1) (by omega)
      simpa using this
    obtain ⟨g, hg⟩ := writeBytes_total (listRange src.data 0 SRAM_SIZE)
      LsdjSram.empty.data 0 (by rw [listRange_length]; omega)
    obtain ⟨hfr0, hfr1, hwin, hbnd⟩ :=
      writeBytes_spec (listRange src.data 0 SRAM_SIZE) LsdjSram.empty.data 0 g hg
    have hdc : LsdjBlock.decompress ⟨LsdjBlock.empty.position, bd⟩ LsdjSram.empty
        = some (⟨SRAM_SIZE, g⟩, Except.ok 0) := by
      unfold LsdjBlock.decompress
      dsimp only
      rw [decompressAux_eq_decodeRun, hdec1]
      dsimp only
      rw [show LsdjSram.empty.position + 0 = 0 from rfl, hg]
      dsimp only
      rw [listRange_length]
      simp [LsdjSram.empty]
    refine ⟨⟨SRAM_SIZE, g⟩, hdc, rfl, ?_⟩
    intro i hi
    have hwi := hwin i (by rw [listRange_length]; exact hi)
    rw [Nat.zero_add] at hwi
    show g i = src.data i
    rw [hwi, listRange_getD src.data SRAM_SIZE 0 i hi, Nat.zero_add]

/-- The constant-0x41 buffer trivially contains no dictionary window (every
window fails on its first byte), established by induction rather than by
evaluating the 0x8000-step scan. -/
theorem dictFreeAux_const41 : ∀ fuel p, dictFreeAux (fun _ => 0x41) fuel p = true := by
  intro fuel
  induction fuel with
  | zero => intro p; rfl
  | succ n ih =>
    intro p
    rw [dictFreeAux]
    by_cases h : p + DEF_INST_SIZE ≤ SRAM_SIZE
    · rw [if_pos h, show is_def_inst (fun _ => 0x41) p = false from rfl,
        show is_def_wave (fun _ => 0x41) p = false from rfl]
      simp [ih (p + 1)]
    · rw [if_neg h]

/-- `sram41`'s buffer is dictionary-free. -/
theorem dictFree41 : dictFreeB sram41.data = true := dictFreeAux_const41 SRAM_SIZE 0

/-- C4 witness: the all-0x41 SRAM buffer, compressed into an empty block
(the concrete result `c4result`), decompressed back. -/
theorem c4_roundtrip_witness :
    ∃ out : LsdjSram,
      (c4result.2.1).decompress LsdjSram.empty = some (out, Except.ok 0) ∧
      out.position = SRAM_SIZE ∧
      ∀ i, i < SRAM_SIZE → out.data i = sram41.data i :=
  c4_roundtrip sram41 c4result.1 c4result.2.1 rfl dictFree41 (by rfl)

end Lsdj
